import Mathlib

/-!
Verification of the minimax AI of `players.py`.

The repository's search engine (`AI.get_possible_moves`, `AI.get_move`,
`AI.minimax` in `players.py`) is embedded shallowly below.  The `Board`
class lives outside the repository (`from board import Board`); the spec
treats it as an external collaborator, so it is modelled as an abstract
interface `BoardOps` of pure functions.  The Python board is mutated in
place; here board state is threaded explicitly: `update_board` returns the
new board together with the change record, `undo_change` returns the board
with the change reversed.  Python exceptions (in particular `max(...)` /
`min(...)` over an empty `choices` list, which raises `ValueError`) are
modelled by `Option`: `none` is an abnormal (raising) execution.

Scores are Python floats used only as `float('inf')`, `float('-inf')` and
values produced by the board's heuristics; they are modelled by `Score`,
integers extended with two infinities.  Python's `sorted` is a stable
ascending sort by a key; it is modelled by the stable insertion sort
`insSort` (any two stable sorts under the same total preorder agree).
-/

namespace TTT

/-- The two marks. Per the source, `'O'` belongs to the maximizer and `'X'`
to the minimizer. -/
inductive Mark where
  | X : Mark
  | O : Mark
deriving DecidableEq

/-- A cell position `(tile_x, tile_y)`. -/
abbrev Pos := Nat × Nat

/-- A move `(tile_x, tile_y, mark)`, exactly the Python triple. -/
abbrev Move := Nat × Nat × Mark

/-- Scores: Python floats as used by the search, namely `float('-inf')`,
`float('inf')` and finite heuristic values (modelled as integers). -/
inductive Score where
  | negInf : Score
  | fin : Int → Score
  | posInf : Score
deriving DecidableEq

namespace Score

/-- Strict comparison of scores, matching Python float `<` on the values
the search can produce (no NaNs arise). -/
def blt : Score → Score → Bool
  | negInf, negInf => false
  | negInf, _ => true
  | fin _, negInf => false
  | fin a, fin b => decide (a < b)
  | fin _, posInf => true
  | posInf, _ => false

instance : LT Score := ⟨fun a b => blt a b = true⟩

instance : LE Score := ⟨fun a b => blt b a = false⟩

theorem lt_def {a b : Score} : a < b ↔ blt a b = true := Iff.rfl

theorem le_def {a b : Score} : a ≤ b ↔ blt b a = false := Iff.rfl

instance : DecidableEq Score := inferInstance

instance linearOrder : LinearOrder Score where
  le_refl a := by cases a <;> simp [le_def, blt]
  le_trans a b c := by
    cases a <;> cases b <;> cases c <;> simp [le_def, blt] <;> omega
  le_antisymm a b := by
    cases a <;> cases b <;> simp [le_def, blt] <;> omega
  le_total a b := by
    cases a <;> cases b <;> simp [le_def, blt] <;> omega
  lt_iff_le_not_le a b := by
    cases a <;> cases b <;> simp [le_def, lt_def, blt] <;> omega
  decidableLE a b := inferInstanceAs (Decidable (blt b a = false))
  decidableLT a b := inferInstanceAs (Decidable (blt a b = true))

theorem blt_eq_true_iff {a b : Score} : blt a b = true ↔ a < b := Iff.rfl

theorem blt_eq_false_iff {a b : Score} : blt a b = false ↔ b ≤ a := Iff.rfl

end Score

/-- Entry of a candidate-move list: `((score_X, score_O), (tile_x, tile_y, mark))`. -/
abbrev ScoredMove := (Int × Int) × Move

/-- Stable insertion of `a` into `l`: `a` is placed before the first
element `b` with `le a b`. -/
def sinsert (le : α → α → Bool) (a : α) : List α → List α
  | [] => [a]
  | b :: bs => if le a b then a :: b :: bs else b :: sinsert le a bs

/-- Stable ascending sort, modelling Python's `sorted(l, key=...)` where
`le x y = (key x ≤ key y)`: a stable sort under a total preorder is
uniquely determined, so this agrees with Python's Timsort. -/
def insSort (le : α → α → Bool) : List α → List α
  | [] => []
  | a :: as => sinsert le a (insSort le as)

/-- The comparison used for minimizer-favoring lists: `key=lambda x: x[0][0]`. -/
def leX (p q : ScoredMove) : Bool := decide (p.1.1 ≤ q.1.1)

/-- The comparison used for maximizer-favoring lists: `key=lambda o: o[0][1]`. -/
def leO (p q : ScoredMove) : Bool := decide (p.1.2 ≤ q.1.2)

/-- The board abstraction required by the search (spec section 6).  `β` is
the board state, `σ` the per-cell undo record.  `value b x y mk` models
`board.logic[y][x].get_value_mark(mk)`; `update_board` models the mutating
`board.update_board(move, graphic=False)` returning the list of
`((tile_x, tile_y), previous_state)` records; `undo_change` models
`board.undo_change(orig_states, move)`; `check_win` models the boolean
component of `board.check_win(move)`; `score_board` models
`Board.score_board(board)`; `height b` models `len(board.tiles)` and
`width b y` models `len(board.tiles[y])`. -/
structure BoardOps (β : Type) (σ : Type) where
  check_legal : β → Move → Bool
  value : β → Nat → Nat → Mark → Int
  update_board : β → Move → β × List (Pos × σ)
  undo_change : β → List (Pos × σ) → Move → β
  check_win : β → Move → Bool
  score_board : β → Int
  height : β → Nat
  width : β → Nat → Nat

variable {β σ : Type}

/-- Embedding of `AI.get_possible_moves` (players.py lines 46-66). -/
def get_possible_moves (B : BoardOps β σ) (b : β) (maximizer : Bool) :
    List ScoredMove × List ScoredMove :=
  let mark := if maximizer then Mark.O else Mark.X
  let possible_moves :=
    (List.range (B.height b)).flatMap (fun tile_y =>
      (List.range (B.width b tile_y)).filterMap (fun tile_x =>
        if B.check_legal b (tile_x, tile_y, mark) then
          let score_X := B.value b tile_x tile_y Mark.X
          let score_O := B.value b tile_x tile_y Mark.O
          if score_X ≠ 0 ∨ score_O ≠ 0 then
            some ((score_X, score_O), (tile_x, tile_y, mark))
          else none
        else none))
  let x_fav := possible_moves.filter (fun m => decide (m.1.1 < 0))
  let o_fav := possible_moves.filter (fun m => decide (m.1.2 > 0))
  (insSort leX x_fav, insSort leO o_fav)

/-- Python `l[:branch_factor//2]` for a nonnegative branch factor. -/
def pyHalfTake (branch_factor : Nat) (l : List ScoredMove) : List ScoredMove :=
  l.take (branch_factor / 2)

/-- Python `l[-branch_factor//2:]` for a nonnegative branch factor: the
index is `(-branch_factor)//2` (floor), i.e. `-((branch_factor+1)/2)`, so
for `branch_factor ≥ 1` this keeps the last `⌈branch_factor/2⌉` elements;
for `branch_factor = 0` the slice `l[0:]` is the whole list. -/
def pyHalfTakeLast (branch_factor : Nat) (l : List ScoredMove) : List ScoredMove :=
  if branch_factor = 0 then l else l.drop (l.length - (branch_factor + 1) / 2)

/-- Embedding of the move-ordering interleave (players.py lines 96-100).
Note that in the maximizer branch the final slice of `poss_x` starts at
`len(poss_o)//2`, exactly as in the source. -/
def interleave (maximizer : Bool) (poss_x poss_o : List ScoredMove) : List ScoredMove :=
  if maximizer then
    poss_o.drop (poss_o.length / 2) ++ poss_x.take (poss_x.length / 2)
      ++ poss_o.take (poss_o.length / 2) ++ poss_x.drop (poss_o.length / 2)
  else
    poss_x.take (poss_x.length / 2) ++ poss_o.drop (poss_o.length / 2)
      ++ poss_x.drop (poss_x.length / 2) ++ poss_o.take (poss_o.length / 2)

/-- The mark of the side to move next: `'O' if mark == 'X' else 'X'`. -/
def nxtMark (mark : Mark) : Mark :=
  if mark = Mark.X then Mark.O else Mark.X

/-- Embedding of the candidate-list recomputation passed one ply deeper
(players.py lines 119-130): recompute entries for the cells affected by
the move just applied, merge with the inherited (capped) lists, stably
re-sort by the relevant heuristic component, drop entries whose move
equals the move just played, and stamp every remaining entry with the next
mover's mark. -/
def childLists (B : BoardOps β σ) (b1 : β) (poss_x poss_o : List ScoredMove)
    (orig_states : List (Pos × σ)) (move : Move) :
    List ScoredMove × List ScoredMove :=
  let nxt_mark := nxtMark move.2.2
  let new_poss_moves := orig_states.map (fun p =>
    ((B.value b1 p.1.1 p.1.2 Mark.X, B.value b1 p.1.1 p.1.2 Mark.O),
      (p.1.1, p.1.2, nxt_mark)))
  let x_fav := new_poss_moves.filter (fun p => decide (p.1.1 < 0))
  let o_fav := new_poss_moves.filter (fun p => decide (p.1.2 > 0))
  let x_fav := ((insSort leX (poss_x ++ x_fav)).filter (fun p => p.2 ≠ move)).map
    (fun p => (p.1, (p.2.1, p.2.2.1, nxt_mark)))
  let o_fav := ((insSort leO (poss_o ++ o_fav)).filter (fun p => p.2 ≠ move)).map
    (fun p => (p.1, (p.2.1, p.2.2.1, nxt_mark)))
  (x_fav, o_fav)

/-- Python's `max(choices, key=lambda x: x[1])` when `maximizer`, else
`min(choices, key=lambda x: x[1])`; both keep the first extremal element
and raise (`none`) on an empty list. -/
def pickEnd (maximizer : Bool) : List (Move × Score) → Option (Move × Score)
  | [] => none
  | c :: cs =>
    some (cs.foldl (fun acc x =>
      if (if maximizer then Score.blt acc.2 x.2 else Score.blt x.2 acc.2)
      then x else acc) c)

/-- Evaluation of one candidate after the win check (players.py lines
115-133): on the depth floor (`dm = 0`, i.e. `depth == 1`) the static
evaluator scores the position; otherwise the merged child candidate lists
are built and the recursive call `recur` (board, maximizer flag, branch
factor, lists, `max_worst`, `min_worst`) is made — the source omits
`branch_factor` there, so the Python default `10` is passed.  Returns the
board as the callee left it together with the score, or `none` when the
callee raised. -/
def evalChild
    (recur : β → Bool → Nat → List ScoredMove → List ScoredMove → Score → Score →
      Option (β × Move × Score))
    (B : BoardOps β σ) (maximizer : Bool) (dm : Nat)
    (px po : List ScoredMove) (b1 : β) (orig_states : List (Pos × σ))
    (move : Move) (max_worst min_worst : Score) : Option (β × Score) :=
  if dm = 0 then some (b1, Score.fin (B.score_board b1))
  else
    let nl := childLists B b1 px po orig_states move
    match recur b1 (!maximizer) 10 nl.1 nl.2 max_worst min_worst with
    | none => none
    | some r => some (r.1, r.2.2)

/-- The candidate loop of `AI.minimax` (players.py lines 103-153),
abstracted over the recursive call `recur`.  `dm` is the remaining depth
minus one, so `dm = 0` is the `depth == 1` static evaluation case.
`px`/`po` are the capped candidate lists of the current node, needed by
the child-list recomputation.  The result is the final board together
with the `(move, score)` pair, or `none` for a raising execution. -/
def minimaxLoopWith
    (recur : β → Bool → Nat → List ScoredMove → List ScoredMove → Score → Score →
      Option (β × Move × Score))
    (B : BoardOps β σ) (maximizer : Bool) (dm : Nat)
    (px po : List ScoredMove) :
    β → List ScoredMove → Score → Score → List (Move × Score) →
      Option (β × Move × Score)
  | b, [], _, _, choices =>
    (pickEnd maximizer choices).map (fun c => (b, c))
  | b, sm :: rest, max_worst, min_worst, choices =>
    let move := sm.2
    let upd := B.update_board b move
    if B.check_win upd.1 move then
      some (B.undo_change upd.1 upd.2 move, move,
        if maximizer then Score.posInf else Score.negInf)
    else
      match evalChild recur B maximizer dm px po upd.1 upd.2 move max_worst min_worst with
      | none => none
      | some (b2, nxt_ply_score) =>
        let choices' := choices ++ [(move, nxt_ply_score)]
        let b3 := B.undo_change b2 upd.2 move
        if maximizer then
          if Score.blt min_worst nxt_ply_score then
            (pickEnd maximizer choices').map (fun c => (b3, c))
          else
            minimaxLoopWith recur B maximizer dm px po b3 rest
              (if Score.blt max_worst nxt_ply_score then nxt_ply_score else max_worst)
              min_worst choices'
        else
          if Score.blt nxt_ply_score max_worst then
            (pickEnd maximizer choices').map (fun c => (b3, c))
          else
            minimaxLoopWith recur B maximizer dm px po b3 rest
              max_worst
              (if Score.blt nxt_ply_score min_worst then nxt_ply_score else min_worst)
              choices'

/-- Embedding of `AI.minimax` (players.py lines 82-153).  The lists are
capped (lines 93-94), interleaved (lines 96-100) and the loop is run.  The
recursive call of the source (line 133) omits `branch_factor`, so every
child call uses the Python default `10` — see the literal `10` inside
`minimaxLoopWith`.  A call with `depth = 0` never arises from `get_move`
with positive depth; in the source it would recurse without a base case,
and it is modelled as the abnormal result `none`. -/
def minimax (B : BoardOps β σ) (b : β) (maximizer : Bool) (depth : Nat)
    (branch_factor : Nat) (poss_x poss_o : List ScoredMove)
    (max_worst min_worst : Score) : Option (β × Move × Score) :=
  match depth with
  | 0 => none
  | dm + 1 =>
    let px := pyHalfTake branch_factor poss_x
    let po := pyHalfTakeLast branch_factor poss_o
    minimaxLoopWith (fun b' mr bf px' po' mw mi => minimax B b' mr dm bf px' po' mw mi)
      B maximizer dm px po b (interleave maximizer px po) max_worst min_worst []

/-- Embedding of `AI.get_move` (players.py lines 68-80): compute both
candidate lists, cap them, and run `minimax` with the default bounds
`float('-inf')`, `float('inf')`.  The returned board is threaded for the
state round-trip claims; diagnostics (`print`, stack-depth reset) have no
observable effect on the result and are omitted. -/
def get_move (B : BoardOps β σ) (b : β) (self_mark : Mark)
    (depth branch_factor : Nat) : Option (β × Move) :=
  let maximizer : Bool := self_mark = Mark.O
  let pm := get_possible_moves B b maximizer
  let poss_x := pyHalfTake branch_factor pm.1
  let poss_o := pyHalfTakeLast branch_factor pm.2
  match minimax B b maximizer depth branch_factor poss_x poss_o
      Score.negInf Score.posInf with
  | none => none
  | some (b', move, _) => some (b', move)

/-- The candidate loop of `AI.minimax` with the cutoff rule disabled: the
two `break` statements (players.py lines 139-140 and 144-145) are removed,
so every candidate of the interleaved order is examined; everything else
(win short-circuit, depth-1 static evaluation, child-list recomputation,
final extremal selection) is identical to `minimaxLoopWith`.  The bound
parameters disappear because without the breaks they are never read.
`fullEvalChild` is the cutoff-free counterpart of `evalChild`. -/
def fullEvalChild
    (recur : β → Bool → Nat → List ScoredMove → List ScoredMove →
      Option (β × Move × Score))
    (B : BoardOps β σ) (maximizer : Bool) (dm : Nat)
    (px po : List ScoredMove) (b1 : β) (orig_states : List (Pos × σ))
    (move : Move) : Option (β × Score) :=
  if dm = 0 then some (b1, Score.fin (B.score_board b1))
  else
    let nl := childLists B b1 px po orig_states move
    match recur b1 (!maximizer) 10 nl.1 nl.2 with
    | none => none
    | some r => some (r.1, r.2.2)

def fullLoopWith
    (recur : β → Bool → Nat → List ScoredMove → List ScoredMove →
      Option (β × Move × Score))
    (B : BoardOps β σ) (maximizer : Bool) (dm : Nat)
    (px po : List ScoredMove) :
    β → List ScoredMove → List (Move × Score) → Option (β × Move × Score)
  | b, [], choices =>
    (pickEnd maximizer choices).map (fun c => (b, c))
  | b, sm :: rest, choices =>
    let move := sm.2
    let upd := B.update_board b move
    if B.check_win upd.1 move then
      some (B.undo_change upd.1 upd.2 move, move,
        if maximizer then Score.posInf else Score.negInf)
    else
      match fullEvalChild recur B maximizer dm px po upd.1 upd.2 move with
      | none => none
      | some (b2, nxt_ply_score) =>
        let choices' := choices ++ [(move, nxt_ply_score)]
        let b3 := B.undo_change b2 upd.2 move
        fullLoopWith recur B maximizer dm px po b3 rest choices'

/-- The exhaustive comparison search of the cutoff-correctness claim:
`AI.minimax` with the cutoff rule disabled, over the same capped,
interleaved candidate order (same capping, same interleave, same child
lists, children likewise exhaustive with the same default branch factor). -/
def minimaxFull (B : BoardOps β σ) (b : β) (maximizer : Bool) (depth : Nat)
    (branch_factor : Nat) (poss_x poss_o : List ScoredMove) :
    Option (β × Move × Score) :=
  match depth with
  | 0 => none
  | dm + 1 =>
    let px := pyHalfTake branch_factor poss_x
    let po := pyHalfTakeLast branch_factor poss_o
    fullLoopWith (fun b' mr bf px' po' => minimaxFull B b' mr dm bf px' po')
      B maximizer dm px po b (interleave maximizer px po) []

/-! ### Basic unfolding lemmas -/

theorem minimax_succ (B : BoardOps β σ) (b : β) (mr : Bool) (dm bf : Nat)
    (px po : List ScoredMove) (mw mi : Score) :
    minimax B b mr (dm + 1) bf px po mw mi
      = minimaxLoopWith (fun b' m bf' px' po' mw' mi' => minimax B b' m dm bf' px' po' mw' mi')
          B mr dm (pyHalfTake bf px) (pyHalfTakeLast bf po) b
          (interleave mr (pyHalfTake bf px) (pyHalfTakeLast bf po)) mw mi [] := rfl

theorem minimaxFull_succ (B : BoardOps β σ) (b : β) (mr : Bool) (dm bf : Nat)
    (px po : List ScoredMove) :
    minimaxFull B b mr (dm + 1) bf px po
      = fullLoopWith (fun b' m bf' px' po' => minimaxFull B b' m dm bf' px' po')
          B mr dm (pyHalfTake bf px) (pyHalfTakeLast bf po) b
          (interleave mr (pyHalfTake bf px) (pyHalfTakeLast bf po)) [] := rfl

/-! ### Concrete board instances

Small instances of the board contract used to evaluate the search on
explicit inputs.  The state is the stack of moves applied so far:
`update_board` pushes the move and reports the played cell as the affected
cell, `undo_change` pops, so undo exactly reverses update.  A cell is
legal iff no move on the stack occupies it. -/

/-- Board on which the single winning move is `(2, 2, 'O')` and all cell
heuristics are zero. -/
def stackBoard : BoardOps (List Move) Unit where
  check_legal b m := b.all (fun mv => !(mv.1 == m.1 && mv.2.1 == m.2.1))
  value _ _ _ _ := 0
  update_board b m := (m :: b, [((m.1, m.2.1), ())])
  undo_change b _ _ := b.tail
  check_win _ m := decide (m = (2, 2, Mark.O))
  score_board _ := 7
  height _ := 3
  width _ _ := 3

/-- The same board with no winning moves at all. -/
def noWinBoard : BoardOps (List Move) Unit :=
  { stackBoard with check_win := fun _ _ => false }

/-- The same winless board except that cell `(2, 2)` has heuristic value
`-1` for the minimizer (and `0` for the maximizer), whether or not the
cell is occupied. -/
def valBoard : BoardOps (List Move) Unit :=
  { noWinBoard with
    value := fun _ x y mk => if x = 2 ∧ y = 2 ∧ mk = Mark.X then -1 else 0 }

/-- A maximizer-favoring candidate: scores `(0, 1)`, move `(1, 1, 'O')`. -/
def sm1 : ScoredMove := ((0, 1), (1, 1, Mark.O))

/-- A minimizer-favoring candidate whose move is the winning `(2, 2, 'O')`. -/
def sm2 : ScoredMove := ((-1, 0), (2, 2, Mark.O))

/-! ### Claim C3 -/

/-- Claim C3, counterexample: at a non-terminal (depth 2), non-win node
with both candidate lists empty, `AI.minimax` does not return the static
evaluation of the position — `choices` stays empty and `max([])` raises
`ValueError`, modelled as `none`. -/
theorem C3_counterexample :
    minimax noWinBoard [] true 2 10 [] [] Score.negInf Score.posInf = none := by
  decide

/-- Claim C3, amended: for every call of `AI.minimax` at positive depth
with both candidate lists empty, the search raises (`max`/`min` of the
empty `choices` list) instead of falling back to static evaluation. -/
theorem C3_empty_lists_raise (B : BoardOps β σ) (b : β) (mr : Bool) (dm bf : Nat)
    (mw mi : Score) :
    minimax B b mr (dm + 1) bf [] [] mw mi = none := by
  rw [minimax_succ]
  have hx : pyHalfTake bf [] = [] := by simp [pyHalfTake]
  have ho : pyHalfTakeLast bf [] = [] := by simp [pyHalfTakeLast]
  rw [hx, ho]
  cases mr <;> simp [interleave, minimaxLoopWith, pickEnd]

/-! ### Claim C5 -/

/-- Claim C5, counterexample: for branch-factor cap `B = 1` the
maximizer-favoring list is not truncated to its last `⌊B/2⌋ = 0` entries:
the Python slice `poss_o[-1//2:]` keeps the last element, and a `minimax`
call with cap `1` does evaluate that candidate (returning it as a winning
move), which the claimed truncation would make impossible. -/
theorem C5_counterexample :
    pyHalfTakeLast 1 [sm2] = [sm2]
    ∧ [sm2].drop ([sm2].length - 1 / 2) = []
    ∧ minimax stackBoard [] true 1 1 [] [sm2] Score.negInf Score.posInf
        = some ([], (2, 2, Mark.O), Score.posInf) := by
  decide

/-- Claim C5, amended: for every branch-factor cap `B ≥ 1`, the
minimizer-favoring list is truncated to its first `⌊B/2⌋` entries and the
maximizer-favoring list to its last `⌈B/2⌉` entries (the Python slice
`[-B//2:]`), and the interleaved candidate order of a node never contains
more than `B` entries, so no recursion node evaluates more than `B`
candidate moves. -/
theorem C5_cap_amended (bf : Nat) (hbf : 1 ≤ bf) (px po : List ScoredMove) (mr : Bool) :
    pyHalfTake bf px = px.take (bf / 2)
    ∧ pyHalfTakeLast bf po = po.drop (po.length - (bf + 1) / 2)
    ∧ (interleave mr (pyHalfTake bf px) (pyHalfTakeLast bf po)).length ≤ bf := by
  refine ⟨rfl, ?_, ?_⟩
  · unfold pyHalfTakeLast
    rw [if_neg (by omega)]
  · have hx : (pyHalfTake bf px).length ≤ bf / 2 := by
      simp only [pyHalfTake, List.length_take]
      exact min_le_left _ _
    have ho : (pyHalfTakeLast bf po).length ≤ (bf + 1) / 2 := by
      simp only [pyHalfTakeLast, if_neg (show ¬bf = 0 by omega), List.length_drop]
      omega
    cases mr <;>
      simp only [interleave, Bool.false_eq_true, if_false, if_true,
        List.length_append, List.length_take, List.length_drop] <;>
      omega

/-- Claim C5, witness for the amended statement at cap `1`. -/
theorem C5_cap_amended_witness :
    1 ≤ 1
    ∧ (pyHalfTake 1 [] = List.take (1 / 2) []
      ∧ pyHalfTakeLast 1 [sm1] = [sm1].drop ([sm1].length - (1 + 1) / 2)
      ∧ (interleave true (pyHalfTake 1 []) (pyHalfTakeLast 1 [sm1])).length ≤ 1) :=
  ⟨by decide, C5_cap_amended 1 (by decide) [] [sm1] true⟩

/-! ### Claim C6 -/

/-- Claim C6, counterexample: with three minimizer-favoring candidates and
one maximizer-favoring candidate, the maximizer-to-move interleave is not
second-half-of-max, first-half-of-min, first-half-of-max, remainder-of-min
— the source slices the final minimizer segment at `len(poss_o)//2`, which
here duplicates the head of the minimizer list. -/
theorem C6_counterexample :
    interleave true [sm1, sm1, sm1] [sm2]
      ≠ [sm2].drop ([sm2].length / 2) ++ [sm1, sm1, sm1].take ([sm1, sm1, sm1].length / 2)
        ++ [sm2].take ([sm2].length / 2) ++ [sm1, sm1, sm1].drop ([sm1, sm1, sm1].length / 2) := by
  decide

/-- Claim C6, amended: the minimizer-to-move interleave is exactly as
claimed (min first half, max second half, min second half, max first
half); the maximizer-to-move interleave is max second half, min first
half, max first half, and then the minimizer list from index
`len(max list)//2` on — which agrees with the claimed "remainder of the
minimizer list" exactly when the two capped lists have equal length. -/
theorem C6_interleave_amended :
    (∀ px po : List ScoredMove, interleave false px po
        = px.take (px.length / 2) ++ po.drop (po.length / 2)
          ++ px.drop (px.length / 2) ++ po.take (po.length / 2))
    ∧ (∀ px po : List ScoredMove, interleave true px po
        = po.drop (po.length / 2) ++ px.take (px.length / 2)
          ++ po.take (po.length / 2) ++ px.drop (po.length / 2))
    ∧ (∀ px po : List ScoredMove, px.length = po.length →
        interleave true px po
          = po.drop (po.length / 2) ++ px.take (px.length / 2)
            ++ po.take (po.length / 2) ++ px.drop (px.length / 2)) := by
  refine ⟨fun px po => by simp [interleave], fun px po => by simp [interleave],
    fun px po h => ?_⟩
  simp only [interleave, if_true]
  rw [h]

/-- Claim C6, witness for the equal-length agreement of the amended
statement. -/
theorem C6_interleave_amended_witness :
    ([sm1] : List ScoredMove).length = [sm2].length
    ∧ interleave true [sm1] [sm2]
        = [sm2].drop ([sm2].length / 2) ++ [sm1].take ([sm1].length / 2)
          ++ [sm2].take ([sm2].length / 2) ++ [sm1].drop ([sm1].length / 2) :=
  ⟨by decide, C6_interleave_amended.2.2 [sm1] [sm2] (by decide)⟩

/-! ### Claims C7 and C10: the candidate lists passed one ply deeper -/

/-- Every entry of either child candidate list carries the next mover's
mark: both the entries recomputed from the affected cells and the
inherited entries are re-stamped by the final comprehension. -/
theorem childLists_mark_eq (B : BoardOps β σ) (b1 : β) (px po : List ScoredMove)
    (os : List (Pos × σ)) (move : Move) (e : ScoredMove)
    (h : e ∈ (childLists B b1 px po os move).1 ∨ e ∈ (childLists B b1 px po os move).2) :
    e.2.2.2 = nxtMark move.2.2 := by
  rcases h with h | h <;>
  · simp only [childLists, List.mem_map] at h
    obtain ⟨p, _, rfl⟩ := h
    rfl

/-- The next mover's mark differs from the mover's mark. -/
theorem nxtMark_ne (m : Mark) : nxtMark m ≠ m := by
  cases m <;> simp [nxtMark]

/-- Claim C7: the candidate lists passed to the one-ply-deeper recursive
call never contain the move just played — inherited entries equal to it
are filtered out, and every remaining entry carries the opposite mark. -/
theorem C7_child_lists_exclude_played_move (B : BoardOps β σ) (b1 : β)
    (px po : List ScoredMove) (os : List (Pos × σ)) (move : Move) (e : ScoredMove)
    (h : e ∈ (childLists B b1 px po os move).1 ∨ e ∈ (childLists B b1 px po os move).2) :
    e.2 ≠ move := by
  have hm := childLists_mark_eq B b1 px po os move e h
  intro heq
  rw [heq] at hm
  exact nxtMark_ne move.2.2 hm.symm

/-- The move `(2, 2, 'O')` just played in the concrete C7/C10 scenario. -/
def playedMove : Move := (2, 2, Mark.O)

/-- The board state of the concrete C7/C10 scenario: `(2, 2)` occupied by
`'O'`. -/
def occState : List Move := [playedMove]

/-- The change record reported by `update_board` for `playedMove`. -/
def occOrig : List (Pos × Unit) := [((2, 2), ())]

/-- The child-list entry produced by the recomputation in the concrete
C7/C10 scenario: the cell just played, carrying the opposite mark. -/
def occEntry : ScoredMove := ((-1, 0), (2, 2, Mark.X))

/-- Claim C7, witness: a concrete child-list entry, distinct from the
played move. -/
theorem C7_child_lists_exclude_played_move_witness :
    (occEntry ∈ (childLists valBoard occState [] [] occOrig playedMove).1
      ∨ occEntry ∈ (childLists valBoard occState [] [] occOrig playedMove).2)
    ∧ occEntry.2 ≠ playedMove :=
  ⟨Or.inl (by decide),
    C7_child_lists_exclude_played_move valBoard occState [] [] occOrig playedMove
      occEntry (Or.inl (by decide))⟩

/-- Claim C10: every entry of the child candidate lists carries the next
mover's mark, and inclusion is decided by the sign tests alone with no
legality re-check — concretely, on `valBoard` the cell `(2, 2)` just
played by `'O'` reappears in the minimizer child list as an `'X'` move
even though placing `'X'` there is illegal (the cell is occupied). -/
theorem C10_child_lists_skip_legality :
    (∀ (β σ : Type) (B : BoardOps β σ) (b1 : β) (px po : List ScoredMove)
        (os : List (Pos × σ)) (move : Move) (e : ScoredMove),
      (e ∈ (childLists B b1 px po os move).1 ∨ e ∈ (childLists B b1 px po os move).2) →
        e.2.2.2 = nxtMark move.2.2)
    ∧ (occEntry ∈ (childLists valBoard occState [] [] occOrig playedMove).1
      ∧ valBoard.check_legal occState (2, 2, Mark.X) = false) :=
  ⟨fun _ _ B b1 px po os move e h => childLists_mark_eq B b1 px po os move e h,
    by decide, by decide⟩

/-- Claim C10, witness: the mark-stamping component applied at the
concrete child-list entry. -/
theorem C10_child_lists_skip_legality_witness :
    (occEntry ∈ (childLists valBoard occState [] [] occOrig playedMove).1
      ∨ occEntry ∈ (childLists valBoard occState [] [] occOrig playedMove).2)
    ∧ occEntry.2.2.2 = nxtMark playedMove.2.2 :=
  ⟨Or.inl (by decide),
    C10_child_lists_skip_legality.1 (List Move) Unit valBoard occState [] []
      occOrig playedMove occEntry (Or.inl (by decide))⟩

/-! ### Claim C9 -/

/-- Claim C9: the configured branch factor caps the candidate lists only
at the node that receives it — the search result depends on
`branch_factor` only through the root capping, because the recursive call
of the source omits the argument and every child call passes the Python
default `10` (the literal `10` inside `minimaxLoopWith`).  The second
conjunct exhibits this: a probe recursive call records the branch factor
it receives as its score, and the loop hands every child exactly `10`. -/
theorem C9_branch_factor_only_caps_root :
    (∀ (β σ : Type) (B : BoardOps β σ) (b : β) (mr : Bool) (depth bf1 bf2 : Nat)
        (px po : List ScoredMove) (mw mi : Score),
      pyHalfTake bf1 px = pyHalfTake bf2 px →
      pyHalfTakeLast bf1 po = pyHalfTakeLast bf2 po →
      minimax B b mr depth bf1 px po mw mi = minimax B b mr depth bf2 px po mw mi)
    ∧ minimaxLoopWith
        (fun _ _ bf _ _ _ _ => some (([] : List Move), ((0, 0, Mark.X) : Move), Score.fin (bf : Int)))
        noWinBoard true 1 [] [] [] [sm1] Score.negInf Score.posInf []
        = some ([], sm1.2, Score.fin 10) := by
  constructor
  · intro β σ B b mr depth bf1 bf2 px po mw mi h1 h2
    cases depth with
    | zero => rfl
    | succ dm => rw [minimax_succ, minimax_succ, h1, h2]
  · decide

/-- Claim C9, witness: the cap-independence component at concrete caps `3`
and `100` over empty candidate lists. -/
theorem C9_branch_factor_only_caps_root_witness :
    pyHalfTake 3 [] = pyHalfTake 100 []
    ∧ pyHalfTakeLast 3 [] = pyHalfTakeLast 100 []
    ∧ minimax noWinBoard [] true 1 3 [] [] Score.negInf Score.posInf
        = minimax noWinBoard [] true 1 100 [] [] Score.negInf Score.posInf :=
  ⟨by decide, by decide,
    C9_branch_factor_only_caps_root.1 (List Move) Unit noWinBoard [] true 1 3 100 [] []
      Score.negInf Score.posInf (by decide) (by decide)⟩

/-! ### Claim C2 -/

/-- Claim C2, counterexample: a board and candidate lists where the
interleaved order of the root node contains an immediately winning move
(`sm2`, in second position), yet `minimax` at depth `3` does not return
that move — the first candidate's subtree reaches a node whose candidate
lists are empty, so the search raises before ever examining the winning
move. -/
theorem C2_counterexample :
    stackBoard.check_win (stackBoard.update_board [] sm2.2).1 sm2.2 = true
    ∧ sm2 ∈ interleave true (pyHalfTake 10 [sm2]) (pyHalfTakeLast 10 [sm1])
    ∧ minimax stackBoard [] true 3 10 [sm2] [sm1] Score.negInf Score.posInf = none := by
  decide

/-- Claim C2, amended: if the first candidate of the node's interleaved
order produces an immediate win, then `minimax` at any depth `≥ 1`
returns that move with score `+∞` when the maximizer is to move and `-∞`
when the minimizer is to move, after undoing the move; the result is
independent of the remaining depth, of the remaining candidates and of
the bounds, i.e. the node neither recurses deeper nor examines further
candidates. -/
theorem C2_first_candidate_win (B : BoardOps β σ) (b : β) (mr : Bool) (dm bf : Nat)
    (px po : List ScoredMove) (mw mi : Score) (sm : ScoredMove) (rest : List ScoredMove)
    (horder : interleave mr (pyHalfTake bf px) (pyHalfTakeLast bf po) = sm :: rest)
    (hwin : B.check_win (B.update_board b sm.2).1 sm.2 = true) :
    minimax B b mr (dm + 1) bf px po mw mi
      = some (B.undo_change (B.update_board b sm.2).1 (B.update_board b sm.2).2 sm.2,
          sm.2, if mr then Score.posInf else Score.negInf) := by
  rw [minimax_succ, horder]
  simp only [minimaxLoopWith, hwin, if_true]

/-- Claim C2, witness for the amended statement: a winning head candidate
at depth 1. -/
theorem C2_first_candidate_win_witness :
    interleave true (pyHalfTake 10 []) (pyHalfTakeLast 10 [sm2]) = sm2 :: []
    ∧ stackBoard.check_win (stackBoard.update_board [] sm2.2).1 sm2.2 = true
    ∧ minimax stackBoard [] true 1 10 [] [sm2] Score.negInf Score.posInf
        = some ([], (2, 2, Mark.O), Score.posInf) :=
  ⟨by decide, by decide,
    (C2_first_candidate_win stackBoard [] true 0 10 [] [sm2] Score.negInf Score.posInf
      sm2 [] (by decide) (by decide)).trans (by decide)⟩

/-! ### Sorting lemmas -/

theorem mem_sinsert {le : α → α → Bool} {a x : α} {l : List α} :
    x ∈ sinsert le a l ↔ x = a ∨ x ∈ l := by
  induction l with
  | nil => simp [sinsert]
  | cons b bs ih =>
    simp only [sinsert]
    split
    · simp [List.mem_cons]
    · simp only [List.mem_cons, ih]
      tauto

theorem mem_insSort {le : α → α → Bool} {x : α} {l : List α} :
    x ∈ insSort le l ↔ x ∈ l := by
  induction l with
  | nil => simp [insSort]
  | cons a as ih => simp [insSort, mem_sinsert, ih]

theorem pairwise_sinsert {le : α → α → Bool}
    (htot : ∀ a b, le a b = true ∨ le b a = true)
    (htrans : ∀ a b c, le a b = true → le b c = true → le a c = true)
    {a : α} {l : List α} (hl : l.Pairwise (fun p q => le p q = true)) :
    (sinsert le a l).Pairwise (fun p q => le p q = true) := by
  induction l with
  | nil => simp [sinsert]
  | cons b bs ih =>
    rw [List.pairwise_cons] at hl
    obtain ⟨hb, hbs⟩ := hl
    simp only [sinsert]
    split
    · rename_i hab
      rw [List.pairwise_cons]
      refine ⟨?_, List.pairwise_cons.mpr ⟨hb, hbs⟩⟩
      intro c hc
      rcases List.mem_cons.mp hc with rfl | hc
      · exact hab
      · exact htrans _ _ _ hab (hb c hc)
    · rename_i hab
      rw [List.pairwise_cons]
      refine ⟨?_, ih hbs⟩
      intro c hc
      rcases mem_sinsert.mp hc with rfl | hc
      · rcases htot c b with h | h
        · exact absurd h hab
        · exact h
      · exact hb c hc

theorem pairwise_insSort {le : α → α → Bool}
    (htot : ∀ a b, le a b = true ∨ le b a = true)
    (htrans : ∀ a b c, le a b = true → le b c = true → le a c = true)
    (l : List α) : (insSort le l).Pairwise (fun p q => le p q = true) := by
  induction l with
  | nil => simp [insSort]
  | cons a as ih => exact pairwise_sinsert htot htrans ih

theorem leX_total (p q : ScoredMove) : leX p q = true ∨ leX q p = true := by
  simp only [leX, decide_eq_true_eq]
  omega

theorem leX_trans (p q r : ScoredMove) :
    leX p q = true → leX q r = true → leX p r = true := by
  simp only [leX, decide_eq_true_eq]
  omega

theorem leO_total (p q : ScoredMove) : leO p q = true ∨ leO q p = true := by
  simp only [leO, decide_eq_true_eq]
  omega

theorem leO_trans (p q r : ScoredMove) :
    leO p q = true → leO q r = true → leO p r = true := by
  simp only [leO, decide_eq_true_eq]
  omega

/-! ### Claim C8 -/

/-- The cell scan of `get_possible_moves` (players.py lines 50-58),
named for the membership lemma below. -/
def cellScan (B : BoardOps β σ) (b : β) (mark : Mark) : List ScoredMove :=
  (List.range (B.height b)).flatMap (fun tile_y =>
    (List.range (B.width b tile_y)).filterMap (fun tile_x =>
      if B.check_legal b (tile_x, tile_y, mark) then
        let score_X := B.value b tile_x tile_y Mark.X
        let score_O := B.value b tile_x tile_y Mark.O
        if score_X ≠ 0 ∨ score_O ≠ 0 then
          some ((score_X, score_O), (tile_x, tile_y, mark))
        else none
      else none))

theorem get_possible_moves_eq (B : BoardOps β σ) (b : β) (mr : Bool) :
    get_possible_moves B b mr
      = (insSort leX ((cellScan B b (if mr then Mark.O else Mark.X)).filter
            (fun m => decide (m.1.1 < 0))),
          insSort leO ((cellScan B b (if mr then Mark.O else Mark.X)).filter
            (fun m => decide (m.1.2 > 0)))) := rfl

theorem mem_cellScan {B : BoardOps β σ} {b : β} {mark : Mark} {e : ScoredMove} :
    e ∈ cellScan B b mark
      ↔ ∃ x y, y < B.height b ∧ x < B.width b y
          ∧ B.check_legal b (x, y, mark) = true
          ∧ (B.value b x y Mark.X ≠ 0 ∨ B.value b x y Mark.O ≠ 0)
          ∧ e = ((B.value b x y Mark.X, B.value b x y Mark.O), (x, y, mark)) := by
  constructor
  · intro h
    simp only [cellScan, List.mem_flatMap, List.mem_filterMap, List.mem_range] at h
    obtain ⟨y, hy, x, hx, hsome⟩ := h
    refine ⟨x, y, hy, hx, ?_⟩
    by_cases hleg : B.check_legal b (x, y, mark) = true
    · rw [if_pos hleg] at hsome
      by_cases hnz : B.value b x y Mark.X ≠ 0 ∨ B.value b x y Mark.O ≠ 0
      · rw [if_pos hnz] at hsome
        exact ⟨hleg, hnz, (Option.some_inj.mp hsome).symm⟩
      · rw [if_neg hnz] at hsome
        exact absurd hsome (by simp)
    · rw [if_neg hleg] at hsome
      exact absurd hsome (by simp)
  · intro ⟨x, y, hy, hx, hleg, hnz, he⟩
    simp only [cellScan, List.mem_flatMap, List.mem_filterMap, List.mem_range]
    exact ⟨y, hy, x, hx, by rw [if_pos hleg, if_pos hnz, he]⟩

/-- Claim C8: `AI.get_possible_moves` returns the pair (minimizer-favoring
list, maximizer-favoring list): every entry is an in-range cell that is
legal for the side's mark and carries that cell's heuristic pair; the
minimizer list holds exactly the cells with negative first component,
sorted ascending by it; the maximizer list holds exactly the cells with
positive second component, sorted ascending by it; cells with both
components zero never appear.  (The function only calls the read-only
queries `check_legal` and `get_value_mark`, so it cannot mutate the board;
in this embedding it is a pure function of the board state.) -/
theorem C8_get_possible_moves_spec (B : BoardOps β σ) (b : β) (mr : Bool) :
    (∀ e ∈ (get_possible_moves B b mr).1,
        B.check_legal b e.2 = true ∧ e.2.2.2 = (if mr then Mark.O else Mark.X)
        ∧ e.1.1 < 0
        ∧ e.1 = (B.value b e.2.1 e.2.2.1 Mark.X, B.value b e.2.1 e.2.2.1 Mark.O)
        ∧ e.2.1 < B.width b e.2.2.1 ∧ e.2.2.1 < B.height b)
    ∧ (∀ e ∈ (get_possible_moves B b mr).2,
        B.check_legal b e.2 = true ∧ e.2.2.2 = (if mr then Mark.O else Mark.X)
        ∧ e.1.2 > 0
        ∧ e.1 = (B.value b e.2.1 e.2.2.1 Mark.X, B.value b e.2.1 e.2.2.1 Mark.O)
        ∧ e.2.1 < B.width b e.2.2.1 ∧ e.2.2.1 < B.height b)
    ∧ (get_possible_moves B b mr).1.Pairwise (fun p q => p.1.1 ≤ q.1.1)
    ∧ (get_possible_moves B b mr).2.Pairwise (fun p q => p.1.2 ≤ q.1.2)
    ∧ (∀ x y, y < B.height b → x < B.width b y →
        B.check_legal b (x, y, if mr then Mark.O else Mark.X) = true →
        (B.value b x y Mark.X ≠ 0 ∨ B.value b x y Mark.O ≠ 0) →
        (B.value b x y Mark.X < 0 →
          ((B.value b x y Mark.X, B.value b x y Mark.O),
            (x, y, if mr then Mark.O else Mark.X)) ∈ (get_possible_moves B b mr).1)
        ∧ (B.value b x y Mark.O > 0 →
          ((B.value b x y Mark.X, B.value b x y Mark.O),
            (x, y, if mr then Mark.O else Mark.X)) ∈ (get_possible_moves B b mr).2)) := by
  rw [get_possible_moves_eq]
  refine ⟨?_, ?_, ?_, ?_, ?_⟩
  · intro e he
    rw [mem_insSort, List.mem_filter] at he
    obtain ⟨hscan, hneg⟩ := he
    rw [decide_eq_true_eq] at hneg
    obtain ⟨x, y, hy, hx, hleg, _, rfl⟩ := mem_cellScan.mp hscan
    exact ⟨hleg, rfl, hneg, rfl, hx, hy⟩
  · intro e he
    rw [mem_insSort, List.mem_filter] at he
    obtain ⟨hscan, hpos⟩ := he
    rw [decide_eq_true_eq] at hpos
    obtain ⟨x, y, hy, hx, hleg, _, rfl⟩ := mem_cellScan.mp hscan
    exact ⟨hleg, rfl, hpos, rfl, hx, hy⟩
  · exact (pairwise_insSort leX_total leX_trans _).imp
      (fun h => by simpa [leX] using h)
  · exact (pairwise_insSort leO_total leO_trans _).imp
      (fun h => by simpa [leO] using h)
  · intro x y hy hx hleg hnz
    constructor
    · intro hneg
      rw [mem_insSort, List.mem_filter]
      exact ⟨mem_cellScan.mpr ⟨x, y, hy, hx, hleg, hnz, rfl⟩, by simpa using hneg⟩
    · intro hpos
      rw [mem_insSort, List.mem_filter]
      exact ⟨mem_cellScan.mpr ⟨x, y, hy, hx, hleg, hnz, rfl⟩, by simpa using hpos⟩

/-- Claim C8, witness: on `valBoard` with an empty move stack, the cell
`(2, 2)` (heuristics `(-1, 0)`) is produced for the minimizer. -/
theorem C8_get_possible_moves_spec_witness :
    2 < valBoard.height [] ∧ 2 < valBoard.width [] 2
    ∧ valBoard.check_legal [] (2, 2, Mark.X) = true
    ∧ (valBoard.value [] 2 2 Mark.X ≠ 0 ∨ valBoard.value [] 2 2 Mark.O ≠ 0)
    ∧ valBoard.value [] 2 2 Mark.X < 0
    ∧ ((valBoard.value [] 2 2 Mark.X, valBoard.value [] 2 2 Mark.O),
        (2, 2, Mark.X)) ∈ (get_possible_moves valBoard [] false).1 :=
  ⟨by decide, by decide, by decide, by decide, by decide,
    ((C8_get_possible_moves_spec valBoard [] false).2.2.2.2 2 2 (by decide) (by decide)
      (by decide) (by decide)).1 (by decide)⟩

/-! ### Board round-trip (claim C1)

Throughout, `H` is the board contract "undo_change exactly reverses
update_board" (spec section 6). -/

theorem evalChild_some_board
    {recur : β → Bool → Nat → List ScoredMove → List ScoredMove → Score → Score →
      Option (β × Move × Score)}
    {B : BoardOps β σ}
    (Hrec : ∀ b mr bf px po mw mi r, recur b mr bf px po mw mi = some r → r.1 = b)
    {mr : Bool} {dm : Nat} {px po : List ScoredMove} {b1 : β}
    {os : List (Pos × σ)} {move : Move} {mw mi : Score} {b2 : β} {s : Score}
    (h : evalChild recur B mr dm px po b1 os move mw mi = some (b2, s)) :
    b2 = b1 := by
  unfold evalChild at h
  split at h
  · exact (Prod.mk.injEq _ _ _ _ ▸ Option.some_inj.mp h).1.symm
  · dsimp only at h
    cases hr : recur b1 (!mr) 10 (childLists B b1 px po os move).1
        (childLists B b1 px po os move).2 mw mi with
    | none => rw [hr] at h; exact absurd h (by simp)
    | some r =>
      rw [hr] at h
      simp only [Option.some_inj, Prod.mk.injEq] at h
      rw [← h.1]
      exact Hrec _ _ _ _ _ _ _ _ hr

theorem fullEvalChild_some_board
    {recur : β → Bool → Nat → List ScoredMove → List ScoredMove →
      Option (β × Move × Score)}
    {B : BoardOps β σ}
    (Hrec : ∀ b mr bf px po r, recur b mr bf px po = some r → r.1 = b)
    {mr : Bool} {dm : Nat} {px po : List ScoredMove} {b1 : β}
    {os : List (Pos × σ)} {move : Move} {b2 : β} {s : Score}
    (h : fullEvalChild recur B mr dm px po b1 os move = some (b2, s)) :
    b2 = b1 := by
  unfold fullEvalChild at h
  split at h
  · exact (Prod.mk.injEq _ _ _ _ ▸ Option.some_inj.mp h).1.symm
  · dsimp only at h
    cases hr : recur b1 (!mr) 10 (childLists B b1 px po os move).1
        (childLists B b1 px po os move).2 with
    | none => rw [hr] at h; exact absurd h (by simp)
    | some r =>
      rw [hr] at h
      simp only [Option.some_inj, Prod.mk.injEq] at h
      rw [← h.1]
      exact Hrec _ _ _ _ _ _ hr

theorem loop_restores
    {B : BoardOps β σ}
    (H : ∀ b m, B.undo_change (B.update_board b m).1 (B.update_board b m).2 m = b)
    {recur : β → Bool → Nat → List ScoredMove → List ScoredMove → Score → Score →
      Option (β × Move × Score)}
    (Hrec : ∀ b mr bf px po mw mi r, recur b mr bf px po mw mi = some r → r.1 = b)
    (mr : Bool) (dm : Nat) (px po : List ScoredMove) :
    ∀ (poss : List ScoredMove) (b : β) (mw mi : Score)
      (choices : List (Move × Score)) (r : β × Move × Score),
      minimaxLoopWith recur B mr dm px po b poss mw mi choices = some r → r.1 = b := by
  intro poss
  induction poss with
  | nil =>
    intro b mw mi choices r h
    simp only [minimaxLoopWith] at h
    cases hp : pickEnd mr choices with
    | none => rw [hp] at h; exact absurd h (by simp)
    | some c =>
      rw [hp] at h
      simp only [Option.map_some', Option.some_inj] at h
      rw [← h]
  | cons sm rest ih =>
    intro b mw mi choices r h
    simp only [minimaxLoopWith] at h
    by_cases hwin : B.check_win (B.update_board b sm.2).1 sm.2
    · rw [if_pos hwin] at h
      simp only [Option.some_inj] at h
      rw [← h]
      exact H b sm.2
    · rw [if_neg hwin] at h
      cases hec : evalChild recur B mr dm px po (B.update_board b sm.2).1
          (B.update_board b sm.2).2 sm.2 mw mi with
      | none => rw [hec] at h; exact absurd h (by simp)
      | some p =>
        obtain ⟨b2, s⟩ := p
        rw [hec] at h
        have hb2 : b2 = (B.update_board b sm.2).1 := evalChild_some_board Hrec hec
        have hb3 : B.undo_change b2 (B.update_board b sm.2).2 sm.2 = b := by
          rw [hb2]; exact H b sm.2
        cases mr with
        | true =>
          simp only [if_true] at h
          by_cases hcut : Score.blt mi s = true
          · rw [if_pos hcut] at h
            cases hp : pickEnd true (choices ++ [(sm.2, s)]) with
            | none => rw [hp] at h; exact absurd h (by simp)
            | some c =>
              rw [hp] at h
              simp only [Option.map_some', Option.some_inj] at h
              rw [← h, hb3]
          · rw [if_neg hcut] at h
            have := ih (B.undo_change b2 (B.update_board b sm.2).2 sm.2) _ _ _ _ h
            rw [hb3] at this
            exact this
        | false =>
          simp only [Bool.false_eq_true, if_false] at h
          by_cases hcut : Score.blt s mw = true
          · rw [if_pos hcut] at h
            cases hp : pickEnd false (choices ++ [(sm.2, s)]) with
            | none => rw [hp] at h; exact absurd h (by simp)
            | some c =>
              rw [hp] at h
              simp only [Option.map_some', Option.some_inj] at h
              rw [← h, hb3]
          · rw [if_neg hcut] at h
            have := ih (B.undo_change b2 (B.update_board b sm.2).2 sm.2) _ _ _ _ h
            rw [hb3] at this
            exact this

theorem minimax_restores {B : BoardOps β σ}
    (H : ∀ b m, B.undo_change (B.update_board b m).1 (B.update_board b m).2 m = b) :
    ∀ (depth : Nat) (b : β) (mr : Bool) (bf : Nat) (px po : List ScoredMove)
      (mw mi : Score) (r : β × Move × Score),
      minimax B b mr depth bf px po mw mi = some r → r.1 = b := by
  intro depth
  induction depth with
  | zero => intro b mr bf px po mw mi r h; exact absurd h (by simp [minimax])
  | succ dm ih =>
    intro b mr bf px po mw mi r h
    rw [minimax_succ] at h
    exact loop_restores H (fun b' mr' bf' px' po' mw' mi' r' h' =>
      ih b' mr' bf' px' po' mw' mi' r' h') mr dm _ _ _ b mw mi [] r h

theorem fullLoop_restores
    {B : BoardOps β σ}
    (H : ∀ b m, B.undo_change (B.update_board b m).1 (B.update_board b m).2 m = b)
    {recur : β → Bool → Nat → List ScoredMove → List ScoredMove →
      Option (β × Move × Score)}
    (Hrec : ∀ b mr bf px po r, recur b mr bf px po = some r → r.1 = b)
    (mr : Bool) (dm : Nat) (px po : List ScoredMove) :
    ∀ (poss : List ScoredMove) (b : β) (choices : List (Move × Score))
      (r : β × Move × Score),
      fullLoopWith recur B mr dm px po b poss choices = some r → r.1 = b := by
  intro poss
  induction poss with
  | nil =>
    intro b choices r h
    simp only [fullLoopWith] at h
    cases hp : pickEnd mr choices with
    | none => rw [hp] at h; exact absurd h (by simp)
    | some c =>
      rw [hp] at h
      simp only [Option.map_some', Option.some_inj] at h
      rw [← h]
  | cons sm rest ih =>
    intro b choices r h
    simp only [fullLoopWith] at h
    by_cases hwin : B.check_win (B.update_board b sm.2).1 sm.2
    · rw [if_pos hwin] at h
      simp only [Option.some_inj] at h
      rw [← h]
      exact H b sm.2
    · rw [if_neg hwin] at h
      cases hec : fullEvalChild recur B mr dm px po (B.update_board b sm.2).1
          (B.update_board b sm.2).2 sm.2 with
      | none => rw [hec] at h; exact absurd h (by simp)
      | some p =>
        obtain ⟨b2, s⟩ := p
        rw [hec] at h
        have hb2 : b2 = (B.update_board b sm.2).1 := fullEvalChild_some_board Hrec hec
        have hb3 : B.undo_change b2 (B.update_board b sm.2).2 sm.2 = b := by
          rw [hb2]; exact H b sm.2
        have := ih (B.undo_change b2 (B.update_board b sm.2).2 sm.2) _ _ h
        rw [hb3] at this
        exact this

theorem minimaxFull_restores {B : BoardOps β σ}
    (H : ∀ b m, B.undo_change (B.update_board b m).1 (B.update_board b m).2 m = b) :
    ∀ (depth : Nat) (b : β) (mr : Bool) (bf : Nat) (px po : List ScoredMove)
      (r : β × Move × Score),
      minimaxFull B b mr depth bf px po = some r → r.1 = b := by
  intro depth
  induction depth with
  | zero => intro b mr bf px po r h; exact absurd h (by simp [minimaxFull])
  | succ dm ih =>
    intro b mr bf px po r h
    rw [minimaxFull_succ] at h
    exact fullLoop_restores H (fun b' mr' bf' px' po' r' h' =>
      ih b' mr' bf' px' po' r' h') mr dm _ _ _ b [] r h

/-- Claim C1: assuming `undo_change` exactly reverses the corresponding
`update_board`, every normally-returning call of `AI.minimax` or
`AI.get_move` leaves the board exactly as it was before the call — every
move applied during the search is undone on every exit path (normal loop
completion, immediate-win return, and pruning-triggered break). -/
theorem C1_board_round_trip (B : BoardOps β σ)
    (H : ∀ b m, B.undo_change (B.update_board b m).1 (B.update_board b m).2 m = b) :
    (∀ (b : β) (mr : Bool) (depth bf : Nat) (px po : List ScoredMove)
        (mw mi : Score) (r : β × Move × Score),
      minimax B b mr depth bf px po mw mi = some r → r.1 = b)
    ∧ (∀ (b : β) (mk : Mark) (depth bf : Nat) (g : β × Move),
      get_move B b mk depth bf = some g → g.1 = b) := by
  refine ⟨fun b mr depth bf px po mw mi r h =>
    minimax_restores H depth b mr bf px po mw mi r h, ?_⟩
  intro b mk depth bf g h
  unfold get_move at h
  dsimp only at h
  cases hres : minimax B b (decide (mk = Mark.O)) depth bf
      (pyHalfTake bf (get_possible_moves B b (decide (mk = Mark.O))).1)
      (pyHalfTakeLast bf (get_possible_moves B b (decide (mk = Mark.O))).2)
      Score.negInf Score.posInf with
  | none => rw [hres] at h; exact absurd h (by simp)
  | some p =>
    obtain ⟨b', m', s'⟩ := p
    rw [hres] at h
    simp only [Option.some_inj] at h
    rw [← h]
    exact minimax_restores H depth b _ bf _ _ _ _ _ hres

/-- Claim C1, witness: the round trip on `stackBoard`, whose undo pops
exactly what update pushed, for a depth-1 winning search. -/
theorem C1_board_round_trip_witness :
    (∀ (b : List Move) (m : Move),
      stackBoard.undo_change (stackBoard.update_board b m).1
        (stackBoard.update_board b m).2 m = b)
    ∧ (([], (2, 2, Mark.O), Score.posInf) : List Move × Move × Score).1 = [] :=
  ⟨fun b m => rfl,
    (C1_board_round_trip stackBoard (fun b m => rfl)).1 [] true 1 10 [] [sm2]
      Score.negInf Score.posInf ([], (2, 2, Mark.O), Score.posInf) (by decide)⟩

/-! ### Score infrastructure for the cutoff-correctness claim (C4) -/

theorem Score.negInf_le (s : Score) : Score.negInf ≤ s := by
  cases s <;> simp [Score.le_def, Score.blt]

theorem Score.le_posInf (s : Score) : s ≤ Score.posInf := by
  cases s <;> simp [Score.le_def, Score.blt]

/-- Running maximum of the scores of a `choices` list, starting from
`-∞`; this is the score of Python's `max(choices, key=lambda x: x[1])`
when the list is nonempty. -/
def MSmax (l : List (Move × Score)) : Score :=
  l.foldl (fun acc c => max acc c.2) Score.negInf

/-- Running minimum of the scores of a `choices` list, starting from
`+∞`. -/
def MSmin (l : List (Move × Score)) : Score :=
  l.foldl (fun acc c => min acc c.2) Score.posInf

theorem MSmax_nil : MSmax [] = Score.negInf := rfl

theorem MSmin_nil : MSmin [] = Score.posInf := rfl

theorem MSmax_append (l : List (Move × Score)) (m : Move) (s : Score) :
    MSmax (l ++ [(m, s)]) = max (MSmax l) s := by
  simp [MSmax, List.foldl_append]

theorem MSmin_append (l : List (Move × Score)) (m : Move) (s : Score) :
    MSmin (l ++ [(m, s)]) = min (MSmin l) s := by
  simp [MSmin, List.foldl_append]

theorem smax_if (a s : Score) : (if Score.blt a s then s else a) = max a s := by
  by_cases h : Score.blt a s = true
  · rw [if_pos h]
    exact (max_eq_right (le_of_lt (Score.lt_def.mpr h))).symm
  · rw [if_neg h]
    exact (max_eq_left (Score.le_def.mpr (Bool.not_eq_true _ ▸ h : Score.blt a s = false))).symm

theorem smin_if (a s : Score) : (if Score.blt s a then s else a) = min a s := by
  by_cases h : Score.blt s a = true
  · rw [if_pos h]
    exact (min_eq_right (le_of_lt (Score.lt_def.mpr h))).symm
  · rw [if_neg h]
    exact (min_eq_left (Score.le_def.mpr (Bool.not_eq_true _ ▸ h : Score.blt s a = false))).symm

theorem pickEnd_isSome {mr : Bool} {l : List (Move × Score)} (h : l ≠ []) :
    ∃ c, pickEnd mr l = some c := by
  cases l with
  | nil => exact absurd rfl h
  | cons c cs => exact ⟨_, rfl⟩

theorem pick_foldl_snd_max :
    ∀ (cs : List (Move × Score)) (c : Move × Score),
      (cs.foldl (fun acc x => if Score.blt acc.2 x.2 then x else acc) c).2
        = cs.foldl (fun acc x => max acc x.2) c.2 := by
  intro cs
  induction cs with
  | nil => intro c; rfl
  | cons d ds ih =>
    intro c
    simp only [List.foldl_cons]
    rw [ih]
    congr 1
    rw [apply_ite Prod.snd]
    exact smax_if c.2 d.2

theorem pick_foldl_snd_min :
    ∀ (cs : List (Move × Score)) (c : Move × Score),
      (cs.foldl (fun acc x => if Score.blt x.2 acc.2 then x else acc) c).2
        = cs.foldl (fun acc x => min acc x.2) c.2 := by
  intro cs
  induction cs with
  | nil => intro c; rfl
  | cons d ds ih =>
    intro c
    simp only [List.foldl_cons]
    rw [ih]
    congr 1
    rw [apply_ite Prod.snd]
    exact smin_if c.2 d.2

theorem pickEnd_true_snd {c : Move × Score} {cs : List (Move × Score)}
    {r : Move × Score} (h : pickEnd true (c :: cs) = some r) :
    r.2 = MSmax (c :: cs) := by
  simp only [pickEnd, Option.some_inj] at h
  rw [← h]
  have := pick_foldl_snd_max cs c
  simp only [if_true] at this ⊢
  rw [this, MSmax]
  simp only [List.foldl_cons]
  rw [max_eq_right (Score.negInf_le c.2)]

theorem pickEnd_false_snd {c : Move × Score} {cs : List (Move × Score)}
    {r : Move × Score} (h : pickEnd false (c :: cs) = some r) :
    r.2 = MSmin (c :: cs) := by
  simp only [pickEnd, Bool.false_eq_true, if_false] at h
  rw [← Option.some_inj.mp h]
  have := pick_foldl_snd_min cs c
  rw [this, MSmin]
  simp only [List.foldl_cons]
  rw [min_eq_right (Score.le_posInf c.2)]

/-- The fold relation of Knuth-Moore style pruning correctness between the
value `v` of the pruned search and the value `w` of the exhaustive search
at a node searched with window `(lo, hi)`: within the closed window the
values agree; a fail-low value is an overestimate of `w` that stays
strictly below `lo`; a fail-high value is an underestimate of `w` that
stays strictly above `hi`. -/
def KMrel (lo hi v w : Score) : Prop :=
  (lo ≤ w ∧ w ≤ hi → v = w) ∧ (w < lo → w ≤ v ∧ v < lo) ∧ (hi < w → hi < v ∧ v ≤ w)

theorem KMrel_self (lo hi w : Score) : KMrel lo hi w w :=
  ⟨fun _ => rfl, fun h => ⟨le_refl w, h⟩, fun h => ⟨h, le_refl w⟩⟩

theorem KMrel_full {v w : Score} (h : KMrel Score.negInf Score.posInf v w) : v = w :=
  h.1 ⟨Score.negInf_le w, Score.le_posInf w⟩

/-- Order bookkeeping for one non-cutoff step of the maximizer loop. -/
theorem KM_max_step {lo hi a VP WF v w : Score} (hlohi : lo ≤ hi) (hahi : a ≤ hi)
    (ha : a = max lo WF) (hP : VP ≤ a) (hRel : KMrel lo hi VP WF)
    (hrel : KMrel a hi v w) (hv : v ≤ hi) :
    max a v = max lo (max WF w) ∧ max VP v ≤ max a v ∧ max a v ≤ hi
      ∧ KMrel lo hi (max VP v) (max WF w) := by
  obtain ⟨r1, r2, r3⟩ := hRel
  obtain ⟨c1, c2, c3⟩ := hrel
  have hWFa : WF ≤ a := ha ▸ le_max_right lo WF
  have hloa : lo ≤ a := ha ▸ le_max_left lo WF
  have hWFhi : WF ≤ hi := by
    by_contra hcon
    exact absurd (le_trans hP hahi) (not_le.mpr (r3 (not_le.mp hcon)).1)
  rcases le_or_lt a w with hw | hw
  · rcases le_or_lt w hi with hwhi | hwhi
    · have hvw : v = w := c1 ⟨hw, hwhi⟩
      have hWFw : max WF w = w := max_eq_right (le_trans hWFa hw)
      refine ⟨?_, max_le_max hP (le_refl v), ?_, ?_⟩
      · rw [hvw, ha, max_assoc, hWFw]
      · rw [hvw]; exact max_le hahi hwhi
      · rw [hvw, hWFw, max_eq_right (le_trans hP hw)]
        exact KMrel_self lo hi w
    · exact absurd hv (not_le.mpr (c3 hwhi).1)
  · obtain ⟨hwv, hva⟩ := c2 hw
    have hmaxav : max a v = a := max_eq_left (le_of_lt hva)
    have hmaxWFw : max lo (max WF w) = a := by
      rw [← max_assoc, ← ha]; exact max_eq_left (le_of_lt hw)
    refine ⟨by rw [hmaxav, hmaxWFw], ?_, by rw [hmaxav]; exact hahi, ?_⟩
    · rw [hmaxav]; exact max_le hP (le_of_lt hva)
    · refine ⟨?_, ?_, ?_⟩
      · intro ⟨h1, h2⟩
        rcases le_total w WF with hwWF | hWFw
        · have hWFweq : max WF w = WF := max_eq_left hwWF
          rw [hWFweq] at h1 h2
          have hVP : VP = WF := r1 ⟨h1, h2⟩
          have haeq : a = WF := by rw [ha]; exact max_eq_right h1
          rw [hWFweq, hVP]
          exact max_eq_left (le_of_lt (haeq ▸ hva))
        · have hWFweq : max WF w = w := max_eq_right hWFw
          rw [hWFweq] at h1
          rcases le_total WF lo with hWFlo | hloWF
          · have haeq : a = lo := by rw [ha]; exact max_eq_left hWFlo
            exact absurd h1 (not_le.mpr (haeq ▸ hw))
          · have haeq : a = WF := by rw [ha]; exact max_eq_right hloWF
            exact absurd hWFw (not_le.mpr (haeq ▸ hw))
      · intro hlt
        rw [max_lt_iff] at hlt
        obtain ⟨hWFlo, hwlo⟩ := hlt
        obtain ⟨hWFVP, hVPlo⟩ := r2 hWFlo
        have haeq : a = lo := by rw [ha]; exact max_eq_left (le_of_lt hWFlo)
        refine ⟨max_le_max hWFVP hwv, max_lt hVPlo (haeq ▸ hva)⟩
      · intro hlt
        rw [lt_max_iff] at hlt
        rcases hlt with hlt | hlt
        · exact absurd hWFhi (not_le.mpr hlt)
        · exact absurd (c3 hlt).1 (not_lt.mpr hv)

/-- Order bookkeeping for the cutoff step of the maximizer loop: `W` is
the final value of the exhaustive loop, which still contains the score
`w` of the candidate whose pruned score `v` triggered the cutoff. -/
theorem KM_max_cut {lo hi a VP WF v w W : Score} (hlohi : lo ≤ hi) (hahi : a ≤ hi)
    (ha : a = max lo WF) (hP : VP ≤ a) (hRel : KMrel lo hi VP WF)
    (hrel : KMrel a hi v w) (hcut : hi < v) (hW : max WF w ≤ W) :
    KMrel lo hi (max VP v) W := by
  obtain ⟨c1, c2, c3⟩ := hrel
  have hwhi : hi < w := by
    by_contra hcon
    rcases le_or_lt a w with hw | hw
    · exact absurd (c1 ⟨hw, not_lt.mp hcon⟩ ▸ hcut) (not_lt.mpr (not_lt.mp hcon))
    · exact absurd hcut (not_lt.mpr (le_trans (le_of_lt (c2 hw).2) hahi))
  have hvw : v ≤ w := (c3 hwhi).2
  have hhiW : hi < W := lt_of_lt_of_le hwhi (le_trans (le_max_right WF w) hW)
  refine ⟨fun ⟨_, h2⟩ => absurd hhiW (not_lt.mpr h2),
    fun h => absurd (lt_of_le_of_lt hlohi hhiW) (not_lt.mpr (le_of_lt h)), fun _ => ?_⟩
  refine ⟨lt_of_lt_of_le hcut (le_max_right VP v), max_le ?_ ?_⟩
  · exact le_trans hP (le_trans hahi (le_of_lt hhiW))
  · exact le_trans hvw (le_trans (le_max_right WF w) hW)

/-- Order bookkeeping for one non-cutoff step of the minimizer loop. -/
theorem KM_min_step {lo hi z VP WF v w : Score} (hlohi : lo ≤ hi) (hloz : lo ≤ z)
    (hz : z = min hi WF) (hP : z ≤ VP) (hRel : KMrel lo hi VP WF)
    (hrel : KMrel lo z v w) (hv : lo ≤ v) :
    min z v = min hi (min WF w) ∧ min z v ≤ min VP v ∧ lo ≤ min z v
      ∧ KMrel lo hi (min VP v) (min WF w) := by
  obtain ⟨r1, r2, r3⟩ := hRel
  obtain ⟨c1, c2, c3⟩ := hrel
  have hzWF : z ≤ WF := hz ▸ min_le_right hi WF
  have hzhi : z ≤ hi := hz ▸ min_le_left hi WF
  have hloWF : lo ≤ WF := by
    by_contra hcon
    exact absurd (le_trans hloz hP) (not_le.mpr (r2 (not_le.mp hcon)).2)
  have hminz : min hi (min WF w) = min z w := by rw [← min_assoc, ← hz]
  rcases le_or_lt w z with hw | hw
  · rcases le_or_lt lo w with hlow | hlow
    · have hvw : v = w := c1 ⟨hlow, hw⟩
      have hWFw : min WF w = w := min_eq_right (le_trans hw hzWF)
      refine ⟨?_, min_le_min hP (le_refl v), ?_, ?_⟩
      · rw [hvw, hminz]
      · rw [hvw]; exact le_min hloz hlow
      · rw [hvw, hWFw, min_eq_right (le_trans hw hP)]
        exact KMrel_self lo hi w
    · exact absurd hv (not_le.mpr (c2 hlow).2)
  · obtain ⟨hzv, hvw⟩ := c3 hw
    have hminzv : min z v = z := min_eq_left (le_of_lt hzv)
    have hminzw : min z w = z := min_eq_left (le_of_lt hw)
    refine ⟨by rw [hminzv, hminz, hminzw], ?_, by rw [hminzv]; exact hloz, ?_⟩
    · rw [hminzv]; exact le_min hP (le_of_lt hzv)
    · refine ⟨?_, ?_, ?_⟩
      · intro ⟨h1, h2⟩
        rcases le_total WF w with hWFw | hwWF
        · have hWFweq : min WF w = WF := min_eq_left hWFw
          rw [hWFweq] at h1 h2
          have hVP : VP = WF := r1 ⟨h1, h2⟩
          have hzeq : z = WF := by rw [hz]; exact min_eq_right h2
          rw [hWFweq, hVP]
          exact min_eq_left (le_of_lt (hzeq ▸ hzv))
        · have hWFweq : min WF w = w := min_eq_right hwWF
          rw [hWFweq] at h2
          rcases le_total hi WF with hhiWF | hWFhi
          · have hzeq : z = hi := by rw [hz]; exact min_eq_left hhiWF
            exact absurd h2 (not_le.mpr (hzeq ▸ hw))
          · have hzeq : z = WF := by rw [hz]; exact min_eq_right hWFhi
            exact absurd hwWF (not_le.mpr (hzeq ▸ hw))
      · intro hlt
        rw [min_lt_iff] at hlt
        rcases hlt with hlt | hlt
        · exact absurd hloWF (not_le.mpr hlt)
        · exact absurd hlt (not_lt.mpr (le_trans hloz (le_of_lt hw)))
      · intro hlt
        rw [lt_min_iff] at hlt
        obtain ⟨hhiWF, hhiw⟩ := hlt
        obtain ⟨hhiVP, hVPWF⟩ := r3 hhiWF
        have hzeq : z = hi := by rw [hz]; exact min_eq_left (le_of_lt hhiWF)
        refine ⟨lt_min hhiVP (hzeq ▸ hzv), min_le_min hVPWF hvw⟩

/-- Order bookkeeping for the cutoff step of the minimizer loop. -/
theorem KM_min_cut {lo hi z VP WF v w W : Score} (hlohi : lo ≤ hi) (hloz : lo ≤ z)
    (hz : z = min hi WF) (hP : z ≤ VP) (hRel : KMrel lo hi VP WF)
    (hrel : KMrel lo z v w) (hcut : v < lo) (hW : W ≤ min WF w) :
    KMrel lo hi (min VP v) W := by
  obtain ⟨c1, c2, c3⟩ := hrel
  have hwlo : w < lo := by
    by_contra hcon
    rcases le_or_lt w z with hw | hw
    · exact absurd (c1 ⟨not_lt.mp hcon, hw⟩ ▸ hcut) (not_lt.mpr (not_lt.mp hcon))
    · exact absurd hcut (not_lt.mpr (le_trans hloz (le_of_lt (c3 hw).1)))
  have hwv : w ≤ v := (c2 hwlo).1
  have hWlo : W < lo := lt_of_le_of_lt (le_trans hW (min_le_right WF w)) hwlo
  refine ⟨fun ⟨h1, _⟩ => absurd hWlo (not_lt.mpr h1),
    fun _ => ?_, fun h => absurd (lt_of_lt_of_le hWlo hlohi) (not_lt.mpr (le_of_lt h))⟩
  refine ⟨le_min ?_ ?_, lt_of_le_of_lt (min_le_right VP v) hcut⟩
  · exact le_trans (le_of_lt hWlo) (le_trans hloz hP)
  · exact le_trans hW (le_trans (min_le_right WF w) hwv)

theorem pickEnd_true_snd' {l : List (Move × Score)} {r : Move × Score}
    (h : pickEnd true l = some r) : r.2 = MSmax l := by
  cases l with
  | nil => simp [pickEnd] at h
  | cons c cs => exact pickEnd_true_snd h

theorem pickEnd_false_snd' {l : List (Move × Score)} {r : Move × Score}
    (h : pickEnd false l = some r) : r.2 = MSmin l := by
  cases l with
  | nil => simp [pickEnd] at h
  | cons c cs => exact pickEnd_false_snd h

/-- The recursive call made by `minimax` at remaining depth `dm + 1`. -/
def prunedRec (B : BoardOps β σ) (dm : Nat) :
    β → Bool → Nat → List ScoredMove → List ScoredMove → Score → Score →
      Option (β × Move × Score) :=
  fun b' m bf' px' po' mw' mi' => minimax B b' m dm bf' px' po' mw' mi'

/-- The recursive call made by `minimaxFull` at remaining depth `dm + 1`. -/
def fullRec (B : BoardOps β σ) (dm : Nat) :
    β → Bool → Nat → List ScoredMove → List ScoredMove → Option (β × Move × Score) :=
  fun b' m bf' px' po' => minimaxFull B b' m dm bf' px' po'

theorem minimax_succ' (B : BoardOps β σ) (b : β) (mr : Bool) (dm bf : Nat)
    (px po : List ScoredMove) (mw mi : Score) :
    minimax B b mr (dm + 1) bf px po mw mi
      = minimaxLoopWith (prunedRec B dm) B mr dm (pyHalfTake bf px) (pyHalfTakeLast bf po)
          b (interleave mr (pyHalfTake bf px) (pyHalfTakeLast bf po)) mw mi [] := rfl

theorem minimaxFull_succ' (B : BoardOps β σ) (b : β) (mr : Bool) (dm bf : Nat)
    (px po : List ScoredMove) :
    minimaxFull B b mr (dm + 1) bf px po
      = fullLoopWith (fullRec B dm) B mr dm (pyHalfTake bf px) (pyHalfTakeLast bf po)
          b (interleave mr (pyHalfTake bf px) (pyHalfTakeLast bf po)) [] := rfl

theorem minimaxLoopWith_nil
    (recur : β → Bool → Nat → List ScoredMove → List ScoredMove → Score → Score →
      Option (β × Move × Score))
    (B : BoardOps β σ) (mr : Bool) (dm : Nat) (px po : List ScoredMove)
    (b : β) (mw mi : Score) (ch : List (Move × Score)) :
    minimaxLoopWith recur B mr dm px po b [] mw mi ch
      = (pickEnd mr ch).map (fun c => (b, c)) := rfl

theorem minimaxLoopWith_cons
    (recur : β → Bool → Nat → List ScoredMove → List ScoredMove → Score → Score →
      Option (β × Move × Score))
    (B : BoardOps β σ) (mr : Bool) (dm : Nat) (px po : List ScoredMove)
    (b : β) (sm : ScoredMove) (rest : List ScoredMove) (mw mi : Score)
    (ch : List (Move × Score)) :
    minimaxLoopWith recur B mr dm px po b (sm :: rest) mw mi ch
      = if B.check_win (B.update_board b sm.2).1 sm.2 then
          some (B.undo_change (B.update_board b sm.2).1 (B.update_board b sm.2).2 sm.2,
            sm.2, if mr then Score.posInf else Score.negInf)
        else
          match evalChild recur B mr dm px po (B.update_board b sm.2).1
              (B.update_board b sm.2).2 sm.2 mw mi with
          | none => none
          | some (b2, s) =>
            if mr then
              if Score.blt mi s then
                (pickEnd mr (ch ++ [(sm.2, s)])).map
                  (fun c => (B.undo_change b2 (B.update_board b sm.2).2 sm.2, c))
              else
                minimaxLoopWith recur B mr dm px po
                  (B.undo_change b2 (B.update_board b sm.2).2 sm.2) rest
                  (if Score.blt mw s then s else mw) mi (ch ++ [(sm.2, s)])
            else
              if Score.blt s mw then
                (pickEnd mr (ch ++ [(sm.2, s)])).map
                  (fun c => (B.undo_change b2 (B.update_board b sm.2).2 sm.2, c))
              else
                minimaxLoopWith recur B mr dm px po
                  (B.undo_change b2 (B.update_board b sm.2).2 sm.2) rest
                  mw (if Score.blt s mi then s else mi) (ch ++ [(sm.2, s)]) := rfl

theorem fullLoopWith_nil
    (recur : β → Bool → Nat → List ScoredMove → List ScoredMove →
      Option (β × Move × Score))
    (B : BoardOps β σ) (mr : Bool) (dm : Nat) (px po : List ScoredMove)
    (b : β) (ch : List (Move × Score)) :
    fullLoopWith recur B mr dm px po b [] ch
      = (pickEnd mr ch).map (fun c => (b, c)) := rfl

theorem fullLoopWith_cons
    (recur : β → Bool → Nat → List ScoredMove → List ScoredMove →
      Option (β × Move × Score))
    (B : BoardOps β σ) (mr : Bool) (dm : Nat) (px po : List ScoredMove)
    (b : β) (sm : ScoredMove) (rest : List ScoredMove) (ch : List (Move × Score)) :
    fullLoopWith recur B mr dm px po b (sm :: rest) ch
      = if B.check_win (B.update_board b sm.2).1 sm.2 then
          some (B.undo_change (B.update_board b sm.2).1 (B.update_board b sm.2).2 sm.2,
            sm.2, if mr then Score.posInf else Score.negInf)
        else
          match fullEvalChild recur B mr dm px po (B.update_board b sm.2).1
              (B.update_board b sm.2).2 sm.2 with
          | none => none
          | some (b2, s) =>
            fullLoopWith recur B mr dm px po
              (B.undo_change b2 (B.update_board b sm.2).2 sm.2) rest
              (ch ++ [(sm.2, s)]) := rfl

/-- The final value of the cutoff-free maximizer loop dominates the
running maximum of the accumulated choices. -/
theorem fullLoop_ge
    (recur : β → Bool → Nat → List ScoredMove → List ScoredMove →
      Option (β × Move × Score))
    (B : BoardOps β σ) (dm : Nat) (px po : List ScoredMove) :
    ∀ (poss : List ScoredMove) (b : β) (ch : List (Move × Score))
      (r : β × Move × Score),
      fullLoopWith recur B true dm px po b poss ch = some r → MSmax ch ≤ r.2.2 := by
  intro poss
  induction poss with
  | nil =>
    intro b ch r h
    rw [fullLoopWith_nil] at h
    cases hp : pickEnd true ch with
    | none => rw [hp] at h; simp at h
    | some c =>
      rw [hp] at h
      simp only [Option.map_some', Option.some_inj] at h
      rw [← h]
      exact le_of_eq (pickEnd_true_snd' hp).symm
  | cons sm rest ih =>
    intro b ch r h
    rw [fullLoopWith_cons] at h
    by_cases hwin : B.check_win (B.update_board b sm.2).1 sm.2
    · rw [if_pos hwin] at h
      simp only [Option.some_inj] at h
      rw [← h]
      exact Score.le_posInf _
    · rw [if_neg hwin] at h
      cases hec : fullEvalChild recur B true dm px po (B.update_board b sm.2).1
          (B.update_board b sm.2).2 sm.2 with
      | none => rw [hec] at h; simp at h
      | some p =>
        obtain ⟨b2, s⟩ := p
        rw [hec] at h
        have := ih _ _ _ h
        refine le_trans ?_ this
        rw [MSmax_append]
        exact le_max_left _ _

/-- The final value of the cutoff-free minimizer loop is dominated by the
running minimum of the accumulated choices. -/
theorem fullLoop_le
    (recur : β → Bool → Nat → List ScoredMove → List ScoredMove →
      Option (β × Move × Score))
    (B : BoardOps β σ) (dm : Nat) (px po : List ScoredMove) :
    ∀ (poss : List ScoredMove) (b : β) (ch : List (Move × Score))
      (r : β × Move × Score),
      fullLoopWith recur B false dm px po b poss ch = some r → r.2.2 ≤ MSmin ch := by
  intro poss
  induction poss with
  | nil =>
    intro b ch r h
    rw [fullLoopWith_nil] at h
    cases hp : pickEnd false ch with
    | none => rw [hp] at h; simp at h
    | some c =>
      rw [hp] at h
      simp only [Option.map_some', Option.some_inj] at h
      rw [← h]
      exact le_of_eq (pickEnd_false_snd' hp)
  | cons sm rest ih =>
    intro b ch r h
    rw [fullLoopWith_cons] at h
    by_cases hwin : B.check_win (B.update_board b sm.2).1 sm.2
    · rw [if_pos hwin] at h
      simp only [Option.some_inj] at h
      rw [← h]
      exact Score.negInf_le _
    · rw [if_neg hwin] at h
      cases hec : fullEvalChild recur B false dm px po (B.update_board b sm.2).1
          (B.update_board b sm.2).2 sm.2 with
      | none => rw [hec] at h; simp at h
      | some p =>
        obtain ⟨b2, s⟩ := p
        rw [hec] at h
        have := ih _ _ _ h
        refine le_trans this ?_
        rw [MSmin_append]
        exact min_le_left _ _

/-- Relation between the pruned and the cutoff-free evaluation of one
candidate, given the node relation for one ply deeper. -/
theorem evalChild_rel {B : BoardOps β σ}
    (H : ∀ b m, B.undo_change (B.update_board b m).1 (B.update_board b m).2 m = b)
    {dm : Nat}
    (IHc : ∀ (b : β) (mr' : Bool) (bf : Nat) (px' po' : List ScoredMove) (lo hi : Score),
      lo ≤ hi →
      (minimax B b mr' dm bf px' po' lo hi = none → minimaxFull B b mr' dm bf px' po' = none)
      ∧ (∀ rp rf, minimax B b mr' dm bf px' po' lo hi = some rp →
          minimaxFull B b mr' dm bf px' po' = some rf → KMrel lo hi rp.2.2 rf.2.2))
    (mr : Bool) (px po : List ScoredMove) (b1 : β) (os : List (Pos × σ))
    (move : Move) (lo hi : Score) (hlh : lo ≤ hi) :
    (evalChild (prunedRec B dm) B mr dm px po b1 os move lo hi = none →
      fullEvalChild (fullRec B dm) B mr dm px po b1 os move = none)
    ∧ (∀ p q, evalChild (prunedRec B dm) B mr dm px po b1 os move lo hi = some p →
        fullEvalChild (fullRec B dm) B mr dm px po b1 os move = some q →
        p.1 = b1 ∧ q.1 = b1 ∧ KMrel lo hi p.2 q.2) := by
  by_cases hdm : dm = 0
  · constructor
    · intro h
      rw [evalChild, if_pos hdm] at h
      simp at h
    · intro p q hp hq
      rw [evalChild, if_pos hdm] at hp
      rw [fullEvalChild, if_pos hdm] at hq
      simp only [Option.some_inj] at hp hq
      rw [← hp, ← hq]
      exact ⟨rfl, rfl, KMrel_self lo hi _⟩
  · have key := IHc b1 (!mr) 10 (childLists B b1 px po os move).1
      (childLists B b1 px po os move).2 lo hi hlh
    constructor
    · intro h
      rw [evalChild, if_neg hdm] at h
      dsimp only at h
      rw [fullEvalChild, if_neg hdm]
      dsimp only
      cases hc : minimax B b1 (!mr) dm 10 (childLists B b1 px po os move).1
          (childLists B b1 px po os move).2 lo hi with
      | none =>
        rw [show fullRec B dm b1 (!mr) 10 (childLists B b1 px po os move).1
          (childLists B b1 px po os move).2 = none from key.1 hc]
      | some rc =>
        rw [show prunedRec B dm b1 (!mr) 10 (childLists B b1 px po os move).1
          (childLists B b1 px po os move).2 lo hi = some rc from hc] at h
        simp at h
    · intro p q hp hq
      rw [evalChild, if_neg hdm] at hp
      rw [fullEvalChild, if_neg hdm] at hq
      dsimp only at hp hq
      cases hc : minimax B b1 (!mr) dm 10 (childLists B b1 px po os move).1
          (childLists B b1 px po os move).2 lo hi with
      | none =>
        rw [show prunedRec B dm b1 (!mr) 10 (childLists B b1 px po os move).1
          (childLists B b1 px po os move).2 lo hi = none from hc] at hp
        simp at hp
      | some rc =>
        cases hf : minimaxFull B b1 (!mr) dm 10 (childLists B b1 px po os move).1
            (childLists B b1 px po os move).2 with
        | none =>
          rw [show fullRec B dm b1 (!mr) 10 (childLists B b1 px po os move).1
            (childLists B b1 px po os move).2 = none from hf] at hq
          simp at hq
        | some rf =>
          rw [show prunedRec B dm b1 (!mr) 10 (childLists B b1 px po os move).1
            (childLists B b1 px po os move).2 lo hi = some rc from hc] at hp
          rw [show fullRec B dm b1 (!mr) 10 (childLists B b1 px po os move).1
            (childLists B b1 px po os move).2 = some rf from hf] at hq
          simp only [Option.some_inj] at hp hq
          rw [← hp, ← hq]
          exact ⟨minimax_restores H dm _ _ _ _ _ _ _ _ hc,
            minimaxFull_restores H dm _ _ _ _ _ _ hf,
            key.2 rc rf hc hf⟩

/-- Knuth-Moore style invariant induction over the maximizer loop: the
pruned loop (running lower bound `a`, fixed upper bound `hi`) and the
cutoff-free loop accumulate choice lists `chP`/`chF` whose running maxima
stay in `KMrel`, and their final values stay in `KMrel` for the node's
original window `(lo, hi)`. -/
theorem loopKM_max {B : BoardOps β σ}
    (H : ∀ b m, B.undo_change (B.update_board b m).1 (B.update_board b m).2 m = b)
    {dm : Nat}
    (IHc : ∀ (b : β) (mr' : Bool) (bf : Nat) (px' po' : List ScoredMove) (lo hi : Score),
      lo ≤ hi →
      (minimax B b mr' dm bf px' po' lo hi = none → minimaxFull B b mr' dm bf px' po' = none)
      ∧ (∀ rp rf, minimax B b mr' dm bf px' po' lo hi = some rp →
          minimaxFull B b mr' dm bf px' po' = some rf → KMrel lo hi rp.2.2 rf.2.2))
    (px po : List ScoredMove) :
    ∀ (poss : List ScoredMove) (b : β) (lo hi a : Score)
      (chP chF : List (Move × Score)),
      lo ≤ hi → a ≤ hi → a = max lo (MSmax chF) → MSmax chP ≤ a →
      KMrel lo hi (MSmax chP) (MSmax chF) → (chP = [] ↔ chF = []) →
      (minimaxLoopWith (prunedRec B dm) B true dm px po b poss a hi chP = none →
        fullLoopWith (fullRec B dm) B true dm px po b poss chF = none)
      ∧ (∀ rp rf,
          minimaxLoopWith (prunedRec B dm) B true dm px po b poss a hi chP = some rp →
          fullLoopWith (fullRec B dm) B true dm px po b poss chF = some rf →
          KMrel lo hi rp.2.2 rf.2.2) := by
  intro poss
  induction poss with
  | nil =>
    intro b lo hi a chP chF hlohi hahi ha hP hRel hiff
    rw [minimaxLoopWith_nil, fullLoopWith_nil]
    rcases chP with _ | ⟨c, cs⟩
    · rw [hiff.mp rfl]
      exact ⟨fun _ => rfl, fun rp rf hp _ => by simp [pickEnd] at hp⟩
    · constructor
      · intro h
        obtain ⟨cc, hcc⟩ := @pickEnd_isSome true (c :: cs) (by simp)
        rw [hcc] at h
        simp at h
      · intro rp rf hp hf
        obtain ⟨cc, hcc⟩ := @pickEnd_isSome true (c :: cs) (by simp)
        have hchFne : chF ≠ [] := fun he => List.noConfusion (hiff.mpr he)
        obtain ⟨cf, hcf⟩ := @pickEnd_isSome true chF hchFne
        rw [hcc] at hp
        rw [hcf] at hf
        simp only [Option.map_some', Option.some_inj] at hp hf
        rw [← hp, ← hf]
        show KMrel lo hi cc.2 cf.2
        rw [pickEnd_true_snd' hcc, pickEnd_true_snd' hcf]
        exact hRel
  | cons sm rest ih =>
    intro b lo hi a chP chF hlohi hahi ha hP hRel hiff
    rw [minimaxLoopWith_cons, fullLoopWith_cons]
    by_cases hwin : B.check_win (B.update_board b sm.2).1 sm.2
    · rw [if_pos hwin, if_pos hwin]
      constructor
      · intro h; simp at h
      · intro rp rf hp hf
        simp only [Option.some_inj] at hp hf
        rw [← hp, ← hf]
        exact KMrel_self lo hi _
    · rw [if_neg hwin, if_neg hwin]
      obtain ⟨hrel0, hrel1⟩ := evalChild_rel H IHc true px po (B.update_board b sm.2).1
        (B.update_board b sm.2).2 sm.2 a hi hahi
      cases hfc : fullEvalChild (fullRec B dm) B true dm px po (B.update_board b sm.2).1
          (B.update_board b sm.2).2 sm.2 with
      | none =>
        exact ⟨fun _ => rfl, fun rp rf hp hf => by simp at hf⟩
      | some q =>
        obtain ⟨b2f, w⟩ := q
        cases hec : evalChild (prunedRec B dm) B true dm px po (B.update_board b sm.2).1
            (B.update_board b sm.2).2 sm.2 a hi with
        | none =>
          rw [hrel0 hec] at hfc
          exact Option.noConfusion hfc
        | some p =>
          obtain ⟨b2p, v⟩ := p
          obtain ⟨hb2p, hb2f, hrelv⟩ := hrel1 _ _ hec hfc
          dsimp only at hb2p hb2f hrelv
          dsimp only
          have hb3p : B.undo_change b2p (B.update_board b sm.2).2 sm.2 = b := by
            rw [hb2p]; exact H b sm.2
          have hb3f : B.undo_change b2f (B.update_board b sm.2).2 sm.2 = b := by
            rw [hb2f]; exact H b sm.2
          rw [hb3p, hb3f]
          simp only [if_true]
          by_cases hcut : Score.blt hi v = true
          · rw [if_pos hcut]
            have hcut' : hi < v := Score.lt_def.mpr hcut
            obtain ⟨c, hc⟩ := @pickEnd_isSome true
              (chP ++ [(sm.2, v)]) (by simp)
            rw [hc]
            constructor
            · intro h; simp at h
            · intro rp rf hp hf
              simp only [Option.map_some', Option.some_inj] at hp
              have hW := fullLoop_ge (fullRec B dm) B dm px po rest b
                (chF ++ [(sm.2, w)]) rf hf
              rw [MSmax_append] at hW
              rw [← hp]
              show KMrel lo hi c.2 rf.2.2
              rw [pickEnd_true_snd' hc, MSmax_append]
              exact KM_max_cut hlohi hahi ha hP hRel hrelv hcut' hW
          · rw [if_neg hcut]
            have hv : v ≤ hi := Score.blt_eq_false_iff.mp (Bool.not_eq_true _ ▸ hcut)
            rw [smax_if]
            obtain ⟨hstep1, hstep2, hstep3, hstep4⟩ :=
              KM_max_step hlohi hahi ha hP hRel hrelv hv
            exact ih b lo hi (max a v) (chP ++ [(sm.2, v)]) (chF ++ [(sm.2, w)])
              hlohi hstep3 (by rw [MSmax_append]; exact hstep1)
              (by rw [MSmax_append]; exact hstep2)
              (by rw [MSmax_append, MSmax_append]; exact hstep4)
              (by simp)

/-- Mirror of `loopKM_max` for the minimizer loop: fixed lower bound `lo`,
running upper bound `z`. -/
theorem loopKM_min {B : BoardOps β σ}
    (H : ∀ b m, B.undo_change (B.update_board b m).1 (B.update_board b m).2 m = b)
    {dm : Nat}
    (IHc : ∀ (b : β) (mr' : Bool) (bf : Nat) (px' po' : List ScoredMove) (lo hi : Score),
      lo ≤ hi →
      (minimax B b mr' dm bf px' po' lo hi = none → minimaxFull B b mr' dm bf px' po' = none)
      ∧ (∀ rp rf, minimax B b mr' dm bf px' po' lo hi = some rp →
          minimaxFull B b mr' dm bf px' po' = some rf → KMrel lo hi rp.2.2 rf.2.2))
    (px po : List ScoredMove) :
    ∀ (poss : List ScoredMove) (b : β) (lo hi z : Score)
      (chP chF : List (Move × Score)),
      lo ≤ hi → lo ≤ z → z = min hi (MSmin chF) → z ≤ MSmin chP →
      KMrel lo hi (MSmin chP) (MSmin chF) → (chP = [] ↔ chF = []) →
      (minimaxLoopWith (prunedRec B dm) B false dm px po b poss lo z chP = none →
        fullLoopWith (fullRec B dm) B false dm px po b poss chF = none)
      ∧ (∀ rp rf,
          minimaxLoopWith (prunedRec B dm) B false dm px po b poss lo z chP = some rp →
          fullLoopWith (fullRec B dm) B false dm px po b poss chF = some rf →
          KMrel lo hi rp.2.2 rf.2.2) := by
  intro poss
  induction poss with
  | nil =>
    intro b lo hi z chP chF hlohi hloz hz hP hRel hiff
    rw [minimaxLoopWith_nil, fullLoopWith_nil]
    rcases chP with _ | ⟨c, cs⟩
    · rw [hiff.mp rfl]
      exact ⟨fun _ => rfl, fun rp rf hp _ => by simp [pickEnd] at hp⟩
    · constructor
      · intro h
        obtain ⟨cc, hcc⟩ := @pickEnd_isSome false (c :: cs) (by simp)
        rw [hcc] at h
        simp at h
      · intro rp rf hp hf
        obtain ⟨cc, hcc⟩ := @pickEnd_isSome false (c :: cs) (by simp)
        have hchFne : chF ≠ [] := fun he => List.noConfusion (hiff.mpr he)
        obtain ⟨cf, hcf⟩ := @pickEnd_isSome false chF hchFne
        rw [hcc] at hp
        rw [hcf] at hf
        simp only [Option.map_some', Option.some_inj] at hp hf
        rw [← hp, ← hf]
        show KMrel lo hi cc.2 cf.2
        rw [pickEnd_false_snd' hcc, pickEnd_false_snd' hcf]
        exact hRel
  | cons sm rest ih =>
    intro b lo hi z chP chF hlohi hloz hz hP hRel hiff
    rw [minimaxLoopWith_cons, fullLoopWith_cons]
    by_cases hwin : B.check_win (B.update_board b sm.2).1 sm.2
    · rw [if_pos hwin, if_pos hwin]
      constructor
      · intro h; simp at h
      · intro rp rf hp hf
        simp only [Option.some_inj] at hp hf
        rw [← hp, ← hf]
        exact KMrel_self lo hi _
    · rw [if_neg hwin, if_neg hwin]
      obtain ⟨hrel0, hrel1⟩ := evalChild_rel H IHc false px po (B.update_board b sm.2).1
        (B.update_board b sm.2).2 sm.2 lo z hloz
      cases hfc : fullEvalChild (fullRec B dm) B false dm px po (B.update_board b sm.2).1
          (B.update_board b sm.2).2 sm.2 with
      | none =>
        exact ⟨fun _ => rfl, fun rp rf hp hf => by simp at hf⟩
      | some q =>
        obtain ⟨b2f, w⟩ := q
        cases hec : evalChild (prunedRec B dm) B false dm px po (B.update_board b sm.2).1
            (B.update_board b sm.2).2 sm.2 lo z with
        | none =>
          rw [hrel0 hec] at hfc
          exact Option.noConfusion hfc
        | some p =>
          obtain ⟨b2p, v⟩ := p
          obtain ⟨hb2p, hb2f, hrelv⟩ := hrel1 _ _ hec hfc
          dsimp only at hb2p hb2f hrelv
          dsimp only
          have hb3p : B.undo_change b2p (B.update_board b sm.2).2 sm.2 = b := by
            rw [hb2p]; exact H b sm.2
          have hb3f : B.undo_change b2f (B.update_board b sm.2).2 sm.2 = b := by
            rw [hb2f]; exact H b sm.2
          rw [hb3p, hb3f]
          simp only [Bool.false_eq_true, if_false]
          by_cases hcut : Score.blt v lo = true
          · rw [if_pos hcut]
            have hcut' : v < lo := Score.lt_def.mpr hcut
            obtain ⟨c, hc⟩ := @pickEnd_isSome false
              (chP ++ [(sm.2, v)]) (by simp)
            rw [hc]
            constructor
            · intro h; simp at h
            · intro rp rf hp hf
              simp only [Option.map_some', Option.some_inj] at hp
              have hW := fullLoop_le (fullRec B dm) B dm px po rest b
                (chF ++ [(sm.2, w)]) rf hf
              rw [MSmin_append] at hW
              rw [← hp]
              show KMrel lo hi c.2 rf.2.2
              rw [pickEnd_false_snd' hc, MSmin_append]
              exact KM_min_cut hlohi hloz hz hP hRel hrelv hcut' hW
          · rw [if_neg hcut]
            have hv : lo ≤ v := Score.blt_eq_false_iff.mp (Bool.not_eq_true _ ▸ hcut)
            rw [smin_if]
            obtain ⟨hstep1, hstep2, hstep3, hstep4⟩ :=
              KM_min_step hlohi hloz hz hP hRel hrelv hv
            exact ih b lo hi (min z v) (chP ++ [(sm.2, v)]) (chF ++ [(sm.2, w)])
              hlohi hstep3 (by rw [MSmin_append]; exact hstep1)
              (by rw [MSmin_append]; exact hstep2)
              (by rw [MSmin_append, MSmin_append]; exact hstep4)
              (by simp)

/-- The node-level Knuth-Moore relation: for every window `lo ≤ hi`, if
the pruned search raises then the exhaustive search raises, and when both
return values they stand in `KMrel lo hi`. -/
theorem nodeKM {B : BoardOps β σ}
    (H : ∀ b m, B.undo_change (B.update_board b m).1 (B.update_board b m).2 m = b) :
    ∀ (depth : Nat) (b : β) (mr : Bool) (bf : Nat) (px po : List ScoredMove)
      (lo hi : Score), lo ≤ hi →
      (minimax B b mr depth bf px po lo hi = none → minimaxFull B b mr depth bf px po = none)
      ∧ (∀ rp rf, minimax B b mr depth bf px po lo hi = some rp →
          minimaxFull B b mr depth bf px po = some rf → KMrel lo hi rp.2.2 rf.2.2) := by
  intro depth
  induction depth with
  | zero =>
    intro b mr bf px po lo hi _
    exact ⟨fun _ => rfl, fun rp rf hp _ => by simp [minimax] at hp⟩
  | succ dm ih =>
    intro b mr bf px po lo hi hlohi
    rw [minimax_succ', minimaxFull_succ']
    cases mr with
    | true =>
      refine loopKM_max H ih (pyHalfTake bf px) (pyHalfTakeLast bf po) _ b lo hi lo [] []
        hlohi hlohi ?_ (Score.negInf_le lo) ?_ Iff.rfl
      · rw [MSmax_nil, max_eq_left (Score.negInf_le lo)]
      · rw [MSmax_nil]
        exact KMrel_self lo hi _
    | false =>
      refine loopKM_min H ih (pyHalfTake bf px) (pyHalfTakeLast bf po) _ b lo hi hi [] []
        hlohi hlohi ?_ (Score.le_posInf hi) ?_ Iff.rfl
      · rw [MSmin_nil, min_eq_left (Score.le_posInf hi)]
      · rw [MSmin_nil]
        exact KMrel_self lo hi _

/-- Claim C4: assuming the board contract (undo exactly reverses update),
for every board, side to move, depth and branch-factor cap, whenever the
same search with the cutoff rule disabled (exhaustive over the same
capped, interleaved candidate order) returns a value, `AI.minimax` with
its default bounds `-∞`, `+∞` returns normally with exactly the same
value — in particular the exhaustive search never finds a strictly better
score than the pruned search. -/
theorem C4_pruning_preserves_value (B : BoardOps β σ)
    (H : ∀ b m, B.undo_change (B.update_board b m).1 (B.update_board b m).2 m = b)
    (b : β) (mr : Bool) (depth bf : Nat) (px po : List ScoredMove)
    (rf : β × Move × Score)
    (hfull : minimaxFull B b mr depth bf px po = some rf) :
    ∃ rp : β × Move × Score,
      minimax B b mr depth bf px po Score.negInf Score.posInf = some rp
      ∧ rp.2.2 = rf.2.2 ∧ rp.1 = b := by
  obtain ⟨h1, h2⟩ := nodeKM H depth b mr bf px po Score.negInf Score.posInf
    (Score.negInf_le Score.posInf)
  cases hp : minimax B b mr depth bf px po Score.negInf Score.posInf with
  | none =>
    rw [h1 hp] at hfull
    exact Option.noConfusion hfull
  | some rp =>
    exact ⟨rp, rfl, KMrel_full (h2 rp rf hp hfull),
      minimax_restores H depth b mr bf px po Score.negInf Score.posInf rp hp⟩

/-- Claim C4, witness: on `noWinBoard` at depth 1 with a single candidate,
the exhaustive value is `7` and the pruned search returns the same value. -/
theorem C4_pruning_preserves_value_witness :
    (∀ (b : List Move) (m : Move),
      noWinBoard.undo_change (noWinBoard.update_board b m).1
        (noWinBoard.update_board b m).2 m = b)
    ∧ minimaxFull noWinBoard [] true 1 10 [] [sm1]
        = some ([], (1, 1, Mark.O), Score.fin 7)
    ∧ ∃ rp : List Move × Move × Score,
        minimax noWinBoard [] true 1 10 [] [sm1] Score.negInf Score.posInf = some rp
        ∧ rp.2.2 = (([], (1, 1, Mark.O), Score.fin 7) : List Move × Move × Score).2.2
        ∧ rp.1 = [] :=
  ⟨fun b m => rfl, by decide,
    C4_pruning_preserves_value noWinBoard (fun b m => rfl) [] true 1 10 [] [sm1]
      ([], (1, 1, Mark.O), Score.fin 7) (by decide)⟩

end TTT
